import Mathlib

/-!
Shallow embedding of `voronoi_finite_polygons_2d` from
`src/free/generate_voronoi.py` (an identical copy, up to a docstring line,
lives in `src/free/debug_voronoi.py`).

Modelling conventions:
* numpy float64 values are modelled as real numbers (`ℝ`); 2-vectors as `ℝ × ℝ`.
* `np.linalg.norm` is `Real.sqrt` of the sum of squares, `np.sign` is
  `Real.sign` (−1 / 0 / 1), `np.arctan2 y x` is `Complex.arg ⟨x, y⟩`
  (range (−π, π], the mathematical atan2).
* Python list indexing `l[i]` (which accepts negative indices, counting from
  the end, and raises `IndexError` when out of range) is `pyGet`.
* The function can raise: `ValueError` (explicit 2-D check), `KeyError`
  (`all_ridges[p1]` on a missing key) and `IndexError` (out-of-range numpy /
  list indexing).  The embedding therefore returns `Except PyErr _`.
* `np.argsort` of the angle keys followed by `coords[order]` is a
  sort of the coordinate list by angle key.  numpy's default quicksort is
  unstable, i.e. the order of equal keys is unspecified; the embedding uses
  `List.insertionSort` on the angle-`≤` relation, and every theorem below
  relies only on the two facts that hold for any sort-by-key: the result is a
  permutation of the input and it is sorted by the key.
* In the scipy `Voronoi` object, `points` is an `(n, d)` array; its number of
  columns `shape[1]` is modelled by the field `pointsDim`, and the rows as
  `ℝ × ℝ` pairs (they are only consulted after the `pointsDim = 2` check
  passes).
-/

/-- A planar point (a row of a numpy `(n, 2)` array). -/
abbrev Pt : Type := ℝ × ℝ

/-- Componentwise vector addition of 2-vectors. -/
def vadd (a b : Pt) : Pt := (a.1 + b.1, a.2 + b.2)

/-- Componentwise vector subtraction of 2-vectors. -/
def vsub (a b : Pt) : Pt := (a.1 - b.1, a.2 - b.2)

/-- Scalar multiplication of a 2-vector on the left. -/
def smul (c : ℝ) (a : Pt) : Pt := (c * a.1, c * a.2)

/-- Multiplication of a 2-vector by a scalar on the right (numpy `v * c`). -/
def vmuls (a : Pt) (c : ℝ) : Pt := (a.1 * c, a.2 * c)

/-- Componentwise division of a 2-vector by a scalar (numpy `v / c`). -/
noncomputable def sdiv (a : Pt) (c : ℝ) : Pt := (a.1 / c, a.2 / c)

/-- Dot product of 2-vectors (`np.dot`). -/
def dot (a b : Pt) : ℝ := a.1 * b.1 + a.2 * b.2

/-- Euclidean norm of a 2-vector (`np.linalg.norm`). -/
noncomputable def norm2 (a : Pt) : ℝ := Real.sqrt (a.1 ^ 2 + a.2 ^ 2)

/-- Maximum of a list of reals (`np.max` on a nonempty array).  The `0`
default on the empty list is a total-function placeholder only: numpy raises
ValueError on an empty reduction, and the run models that error explicitly in
`resolveRadiusE`, so this default is never consulted by the run. -/
noncomputable def listMax : List ℝ → ℝ
  | [] => 0
  | h :: t => t.foldl max h

/-- Minimum of a list of reals (`np.min` on a nonempty array; the empty-list
default is a placeholder exactly as in `listMax`, with numpy's empty-reduction
ValueError modelled in `resolveRadiusE`). -/
noncomputable def listMin : List ℝ → ℝ
  | [] => 0
  | h :: t => t.foldl min h

/-- The flattened coordinate list of an `(n, 2)` array, row major, as used by
`np.ptp` with no axis argument. -/
def flatten2 (l : List Pt) : List ℝ := l.foldr (fun p acc => p.1 :: p.2 :: acc) []

/-- Peak-to-peak of all entries of the flattened array: `np.ptp(vor.points)`
(no `axis` argument, so numpy reduces over the flattened array). -/
noncomputable def ptpPoints (l : List Pt) : ℝ := listMax (flatten2 l) - listMin (flatten2 l)

/-- Mean of a list of 2-vectors (`arr.mean(axis=0)`). -/
noncomputable def centroidOf (l : List Pt) : Pt :=
  sdiv (l.foldl (fun acc p => vadd acc p) ((0 : ℝ), (0 : ℝ))) (l.length : ℝ)

/-- Mathematical `atan2 y x`, modelling `np.arctan2`: the argument of the
complex number `x + y i`, in the interval (−π, π]. -/
noncomputable def atan2 (y x : ℝ) : ℝ := Complex.arg ⟨x, y⟩

/-- Angle of `p` around the centre `c`, as computed by the source:
`np.arctan2(coords[:,1] - centroid[1], coords[:,0] - centroid[0])`. -/
noncomputable def angleOf (c p : Pt) : ℝ := atan2 (p.2 - c.2) (p.1 - c.1)

/-- The sort of the coordinate list by angle around its own centroid, i.e. the
composite `order = np.argsort(angles); polygon = coords[order]` of the source. -/
noncomputable def sortByAngle (coords : List Pt) : List Pt :=
  List.insertionSort (fun a b => angleOf (centroidOf coords) a ≤ angleOf (centroidOf coords) b)
    coords

/-- Python list indexing: negative indices count from the end; out-of-range
access yields `none` (an `IndexError`). -/
def pyGet (l : List α) (i : ℤ) : Option α :=
  let j : ℤ := if i < 0 then i + l.length else i
  if j < 0 then none else l.get? j.toNat

/-- The errors the source function can raise. -/
inductive PyErr : Type
  | valueError : PyErr
  | keyError : PyErr
  | indexError : PyErr
deriving DecidableEq

/-- Checked indexing in the `Except` monad: Python `l[i]`. -/
def getIdx (l : List α) (i : ℤ) : Except PyErr α :=
  match pyGet l i with
  | some a => .ok a
  | none => .error .indexError

/-- In-order checked lookup of a list of indices, modelling the Python list
comprehension `[l[v] for v in vs]`. -/
def mapGet (l : List α) : List ℤ → Except PyErr (List α)
  | [] => .ok []
  | v :: vs => do
      let a ← getIdx l v
      let rest ← mapGet l vs
      .ok (a :: rest)

/-- The scipy `Voronoi` object, restricted to the fields the source reads.
`pointsDim` is `vor.points.shape[1]`; the rows of `vor.points` are stored as
pairs (only consulted when `pointsDim = 2`). -/
structure Diagram : Type where
  pointsDim : ℕ
  points : List Pt
  vertices : List Pt
  ridge_points : List (ℕ × ℕ)
  ridge_vertices : List (ℤ × ℤ)
  point_region : List ℕ
  regions : List (List ℤ)

/-- The per-site ridge index `all_ridges[p]`: for each entry of
`zip(vor.ridge_points, vor.ridge_vertices)` whose site pair contains `p`, the
triple (other site, v1, v2), in insertion order.  `all_ridges[p1]` raises
`KeyError` exactly when this list is empty (the key was never created). -/
def allRidges (vor : Diagram) (p : ℕ) : List (ℕ × ℤ × ℤ) :=
  (vor.ridge_points.zip vor.ridge_vertices).foldl
    (fun acc x =>
      let acc2 := if x.1.1 = p then acc ++ [(x.1.2, x.2.1, x.2.2)] else acc
      if x.1.2 = p then acc2 ++ [(x.1.1, x.2.1, x.2.2)] else acc2) []

/-- Resolution of the optional `radius` argument:
`if radius is None: radius = np.ptp(vor.points).max() * 2`. -/
noncomputable def resolveRadius (vor : Diagram) (radius? : Option ℝ) : ℝ :=
  match radius? with
  | none => ptpPoints vor.points * 2
  | some r => r

/-- One iteration of the inner ridge loop of the source, for site `p1`.
State: the list `fars` of synthetic far points appended so far in this region
(the extended vertex table is `tbl ++ fars` where `baseLen = tbl.length`), and
the list `pts` of recorded pairs `(v2, new_v)`.  The index of an appended far
point is `len(new_vertices) - 1 = baseLen + fars.length`. -/
noncomputable def ridgeStepR (vor : Diagram) (center : Pt) (radius : ℝ) (p1 baseLen : ℕ)
    (st : List Pt × List (ℤ × ℕ)) (r : ℕ × ℤ × ℤ) : Except PyErr (List Pt × List (ℤ × ℕ)) :=
  let p2 : ℕ := r.1
  let v1 : ℤ := if r.2.2 < 0 then r.2.2 else r.2.1
  let v2 : ℤ := if r.2.2 < 0 then r.2.1 else r.2.2
  if 0 ≤ v1 ∧ 0 ≤ v2 then .ok st
  else do
    let P2 ← getIdx vor.points (p2 : ℤ)
    let P1 ← getIdx vor.points (p1 : ℤ)
    let t0 := vsub P2 P1
    let t := sdiv t0 (norm2 t0)
    let n : Pt := (-t.2, t.1)
    let midpoint := sdiv (vadd P1 P2) 2
    let direction := smul (Real.sign (dot (vsub midpoint center) n)) n
    let anchor ← getIdx vor.vertices v2
    let far := vadd anchor (vmuls direction radius)
    .ok (st.1 ++ [far], st.2 ++ [(v2, baseLen + st.1.length)])

/-- The inner ridge loop of the source (`for p2, v1, v2 in ridges`). -/
noncomputable def ridgeLoopR (vor : Diagram) (center : Pt) (radius : ℝ) (p1 baseLen : ℕ) :
    List (ℕ × ℤ × ℤ) → List Pt × List (ℤ × ℕ) → Except PyErr (List Pt × List (ℤ × ℕ))
  | [], st => .ok st
  | r :: rest, st => do
      let st2 ← ridgeStepR vor center radius p1 baseLen st r
      ridgeLoopR vor center radius p1 baseLen rest st2

/-- The region-vertex sequence appended by the Python loop
`for v2, new_v in pts: region_vertices.append(v2); region_vertices.append(new_v)`. -/
def interleavePts : List (ℤ × ℕ) → List ℤ
  | [] => []
  | pr :: rest => pr.1 :: (pr.2 : ℤ) :: interleavePts rest

/-- The body of the outer site loop for one site `p1` with region index
`ridx = vor.point_region[p1]`.  `tbl` is the current extended vertex table
(`new_vertices`); the result is the emitted polygon together with the far
points this region appended to the table. -/
noncomputable def processSite (vor : Diagram) (center : Pt) (radius : ℝ) (tbl : List Pt)
    (p1 ridx : ℕ) : Except PyErr (List Pt × List Pt) := do
  let vertices ← getIdx vor.regions (ridx : ℤ)
  if vertices.all (fun v => decide (0 ≤ v)) then do
    let poly ← mapGet vor.vertices vertices
    .ok (poly, [])
  else
    if allRidges vor p1 = [] then .error .keyError
    else do
      let res ← ridgeLoopR vor center radius p1 tbl.length (allRidges vor p1) ([], [])
      let rv := vertices.filter (fun v => decide (0 ≤ v)) ++ interleavePts res.2
      let coords ← mapGet (tbl ++ res.1) rv
      .ok (sortByAngle coords, res.1)

/-- The outer loop `for p1, region_idx in enumerate(vor.point_region)`,
threading the accumulated region list and the extended vertex table. -/
noncomputable def siteLoop (vor : Diagram) (center : Pt) (radius : ℝ) :
    ℕ → List ℕ → List (List Pt) × List Pt → Except PyErr (List (List Pt) × List Pt)
  | _, [], st => .ok st
  | p1, ridx :: rest, st => do
      let pr ← processSite vor center radius st.2 p1 ridx
      siteLoop vor center radius (p1 + 1) rest (st.1 ++ [pr.1], st.2 ++ pr.2)

/-- Radius resolution including numpy's error path: on a zero-size array
`np.ptp` (a reduction) raises ValueError, so `radius = np.ptp(vor.points)
.max() * 2` fails when no radius is supplied and the diagram has no sites.
On every other input the resolved value is `resolveRadius`. -/
noncomputable def resolveRadiusE (vor : Diagram) (radius? : Option ℝ) : Except PyErr ℝ :=
  match radius? with
  | none =>
      if vor.points.length = 0 then .error .valueError
      else .ok (resolveRadius vor none)
  | some r => .ok (resolveRadius vor (some r))

/-- The whole function, returning both the region list and the final extended
vertex table `new_vertices` (the Python function returns only the former;
see `voronoi_finite_polygons_2d`). -/
noncomputable def voronoiRun (vor : Diagram) (radius? : Option ℝ) :
    Except PyErr (List (List Pt) × List Pt) :=
  if vor.pointsDim ≠ 2 then .error .valueError
  else do
    let radius ← resolveRadiusE vor radius?
    siteLoop vor (centroidOf vor.points) radius 0 vor.point_region ([], vor.vertices)

/-- The source function `voronoi_finite_polygons_2d(vor, radius=None)`:
the list `new_regions` of emitted polygons. -/
noncomputable def voronoi_finite_polygons_2d (vor : Diagram) (radius? : Option ℝ) :
    Except PyErr (List (List Pt)) :=
  (voronoiRun vor radius?).map Prod.fst

namespace Dbg

/-- The per-site ridge index of the `debug_voronoi.py` copy (the two source
files contain character-identical function bodies, so the embeddings are
textually identical as well). -/
def allRidges (vor : Diagram) (p : ℕ) : List (ℕ × ℤ × ℤ) :=
  (vor.ridge_points.zip vor.ridge_vertices).foldl
    (fun acc x =>
      let acc2 := if x.1.1 = p then acc ++ [(x.1.2, x.2.1, x.2.2)] else acc
      if x.1.2 = p then acc2 ++ [(x.1.1, x.2.1, x.2.2)] else acc2) []

/-- Radius resolution of the `debug_voronoi.py` copy. -/
noncomputable def resolveRadius (vor : Diagram) (radius? : Option ℝ) : ℝ :=
  match radius? with
  | none => ptpPoints vor.points * 2
  | some r => r

/-- One ridge iteration of the `debug_voronoi.py` copy. -/
noncomputable def ridgeStepR (vor : Diagram) (center : Pt) (radius : ℝ) (p1 baseLen : ℕ)
    (st : List Pt × List (ℤ × ℕ)) (r : ℕ × ℤ × ℤ) : Except PyErr (List Pt × List (ℤ × ℕ)) :=
  let p2 : ℕ := r.1
  let v1 : ℤ := if r.2.2 < 0 then r.2.2 else r.2.1
  let v2 : ℤ := if r.2.2 < 0 then r.2.1 else r.2.2
  if 0 ≤ v1 ∧ 0 ≤ v2 then .ok st
  else do
    let P2 ← getIdx vor.points (p2 : ℤ)
    let P1 ← getIdx vor.points (p1 : ℤ)
    let t0 := vsub P2 P1
    let t := sdiv t0 (norm2 t0)
    let n : Pt := (-t.2, t.1)
    let midpoint := sdiv (vadd P1 P2) 2
    let direction := smul (Real.sign (dot (vsub midpoint center) n)) n
    let anchor ← getIdx vor.vertices v2
    let far := vadd anchor (vmuls direction radius)
    .ok (st.1 ++ [far], st.2 ++ [(v2, baseLen + st.1.length)])

/-- The inner ridge loop of the `debug_voronoi.py` copy. -/
noncomputable def ridgeLoopR (vor : Diagram) (center : Pt) (radius : ℝ) (p1 baseLen : ℕ) :
    List (ℕ × ℤ × ℤ) → List Pt × List (ℤ × ℕ) → Except PyErr (List Pt × List (ℤ × ℕ))
  | [], st => .ok st
  | r :: rest, st => do
      let st2 ← ridgeStepR vor center radius p1 baseLen st r
      ridgeLoopR vor center radius p1 baseLen rest st2

/-- The per-site body of the `debug_voronoi.py` copy. -/
noncomputable def processSite (vor : Diagram) (center : Pt) (radius : ℝ) (tbl : List Pt)
    (p1 ridx : ℕ) : Except PyErr (List Pt × List Pt) := do
  let vertices ← getIdx vor.regions (ridx : ℤ)
  if vertices.all (fun v => decide (0 ≤ v)) then do
    let poly ← mapGet vor.vertices vertices
    .ok (poly, [])
  else
    if allRidges vor p1 = [] then .error .keyError
    else do
      let res ← ridgeLoopR vor center radius p1 tbl.length (allRidges vor p1) ([], [])
      let rv := vertices.filter (fun v => decide (0 ≤ v)) ++ interleavePts res.2
      let coords ← mapGet (tbl ++ res.1) rv
      .ok (sortByAngle coords, res.1)

/-- The outer site loop of the `debug_voronoi.py` copy. -/
noncomputable def siteLoop (vor : Diagram) (center : Pt) (radius : ℝ) :
    ℕ → List ℕ → List (List Pt) × List Pt → Except PyErr (List (List Pt) × List Pt)
  | _, [], st => .ok st
  | p1, ridx :: rest, st => do
      let pr ← processSite vor center radius st.2 p1 ridx
      siteLoop vor center radius (p1 + 1) rest (st.1 ++ [pr.1], st.2 ++ pr.2)

/-- Radius resolution of the `debug_voronoi.py` copy, including numpy's
ValueError on the zero-size `np.ptp` reduction. -/
noncomputable def resolveRadiusE (vor : Diagram) (radius? : Option ℝ) : Except PyErr ℝ :=
  match radius? with
  | none =>
      if vor.points.length = 0 then .error .valueError
      else .ok (resolveRadius vor none)
  | some r => .ok (resolveRadius vor (some r))

/-- The whole `debug_voronoi.py` copy, with the final vertex table. -/
noncomputable def voronoiRun (vor : Diagram) (radius? : Option ℝ) :
    Except PyErr (List (List Pt) × List Pt) :=
  if vor.pointsDim ≠ 2 then .error .valueError
  else do
    let radius ← resolveRadiusE vor radius?
    siteLoop vor (centroidOf vor.points) radius 0 vor.point_region ([], vor.vertices)

/-- The `voronoi_finite_polygons_2d` function of `debug_voronoi.py`. -/
noncomputable def voronoi_finite_polygons_2d (vor : Diagram) (radius? : Option ℝ) :
    Except PyErr (List (List Pt)) :=
  (voronoiRun vor radius?).map Prod.fst

end Dbg

/-- Rotation of a 2-vector by 90 degrees, `(x, y) ↦ (−y, x)`, as in the
source line `n = np.array([-t[1], t[0]])`. -/
def rot90 (v : Pt) : Pt := (-v.2, v.1)

/-- Normalisation of a 2-vector, from the spec words: the normalized tangent. -/
noncomputable def normalizeSpec (v : Pt) : Pt := sdiv v (norm2 v)

/-- Modelled from the spec words of claim C4: the signed normal of a ridge
between sites `P1`, `P2` — the 90°-rotation of the normalized tangent
`P2 − P1`, with the sign of the dot product between (midpoint of `P1, P2`
minus the reference `center`) and the normal. -/
noncomputable def signedNormalSpec (P1 P2 center : Pt) : Pt :=
  smul (Real.sign (dot (vsub (sdiv (vadd P1 P2) 2) center) (rot90 (normalizeSpec (vsub P2 P1)))))
    (rot90 (normalizeSpec (vsub P2 P1)))

/-- Modelled from the spec words of claim C4: the synthetic far point — the
finite anchor vertex coordinates plus radius times the signed normal. -/
noncomputable def farPointSpec (anchor P1 P2 center : Pt) (radius : ℝ) : Pt :=
  vadd anchor (smul radius (signedNormalSpec P1 P2 center))

/-- Modelled from the spec words of claim C5: twice the maximum over both
coordinate axes of (maximum minus minimum of that axis across all sites). -/
noncomputable def radiusPerAxisSpec (vor : Diagram) : ℝ :=
  2 * max (listMax (vor.points.map Prod.fst) - listMin (vor.points.map Prod.fst))
      (listMax (vor.points.map Prod.snd) - listMin (vor.points.map Prod.snd))

/-- The property claimed in C7 for every emitted polygon: its vertices are in
strictly increasing angle (atan2) around the polygon's own centroid. -/
noncomputable def angleSortedStrict (poly : List Pt) : Prop :=
  poly.Sorted (fun a b => angleOf (centroidOf poly) a < angleOf (centroidOf poly) b)

/-- The region with index `ridx` is open, i.e. contains a negative
("at infinity") vertex reference (a missing region counts as closed). -/
def regionOpenAt (vor : Diagram) (ridx : ℕ) : Prop :=
  ∃ v ∈ vor.regions.getD ridx [], v < 0

/-- Structural well-formedness of an input diagram: the shape facts that hold
for every scipy Voronoi diagram of at least 3 non-collinear 2-D sites.  In
particular every vertex-index reference is in range, every ridge has at least
one finite endpoint, and every site whose region is open is incident to at
least one ridge. -/
def WF (vor : Diagram) : Prop :=
  vor.pointsDim = 2 ∧
  vor.point_region.length = vor.points.length ∧
  (∀ ridx ∈ vor.point_region, ridx < vor.regions.length) ∧
  (∀ reg ∈ vor.regions, ∀ v ∈ reg, v.toNat < vor.vertices.length) ∧
  (∀ pr ∈ vor.ridge_points, pr.1 < vor.points.length ∧ pr.2 < vor.points.length) ∧
  (∀ rv ∈ vor.ridge_vertices,
    (0 ≤ rv.1 ∨ 0 ≤ rv.2) ∧ rv.1.toNat < vor.vertices.length ∧
      rv.2.toNat < vor.vertices.length) ∧
  (∀ i, i < vor.point_region.length →
    regionOpenAt vor (vor.point_region.getD i 0) → allRidges vor i ≠ [])

/-- The polygon the builder emits for site `i`, computed from site `i`'s own
region data with a fresh extended vertex table (claim C2 states that the
threaded run emits exactly this value at position `i`). -/
noncomputable def sitePolygon (vor : Diagram) (radius? : Option ℝ) (i : ℕ) :
    Except PyErr (List Pt) :=
  (processSite vor (centroidOf vor.points) (resolveRadius vor radius?) vor.vertices i
    (vor.point_region.getD i 0)).map Prod.fst

/-- The Voronoi diagram of the non-collinear sites `(10,0)`, `(11,0)`,
`(21/2, 1)`: one Voronoi vertex (the circumcentre `(21/2, 3/8)`), three ray
ridges, all regions open.  The x-range of the sites is 1 and the y-range is 1,
but the flattened coordinate range (max over all coordinates of both axes
minus min over all) is 11 − 0 = 11. -/
noncomputable def Dr3 : Diagram :=
  { pointsDim := 2,
    points := [((10 : ℝ), (0 : ℝ)), ((11 : ℝ), (0 : ℝ)), ((21 / 2 : ℝ), (1 : ℝ))],
    vertices := [((21 / 2 : ℝ), (3 / 8 : ℝ))],
    ridge_points := [(0, 1), (0, 2), (1, 2)],
    ridge_vertices := [(-1, 0), (-1, 0), (-1, 0)],
    point_region := [0, 1, 2],
    regions := [[-1, 0], [-1, 0], [-1, 0]] }

/-- A diagram whose `points` array is 3-dimensional (`shape[1] = 3`). -/
noncomputable def Dbad : Diagram :=
  { pointsDim := 3, points := [], vertices := [], ridge_points := [], ridge_vertices := [],
    point_region := [], regions := [] }

/-- The empty diagram: 2-dimensional but with no sites at all.  When no
radius is supplied, `np.ptp` on the zero-size `vor.points` raises
`ValueError`. -/
noncomputable def Dempty : Diagram :=
  { pointsDim := 2, points := [], vertices := [], ridge_points := [], ridge_vertices := [],
    point_region := [], regions := [] }

/-- A minimal diagram whose two regions are both already closed (no sentinel
anywhere): both regions consist of the single vertex `(1, 1)`. -/
noncomputable def Dtiny : Diagram :=
  { pointsDim := 2, points := [((0 : ℝ), (0 : ℝ)), ((2 : ℝ), (0 : ℝ))],
    vertices := [((1 : ℝ), (1 : ℝ))], ridge_points := [], ridge_vertices := [],
    point_region := [0, 1], regions := [[0], [0]] }

/-- The true Voronoi data of the two sites `(0,0)` and `(1,0)`: no Voronoi
vertex, one ridge (the bisector line, open at both ends, so both its vertex
references are the sentinel −1), and both regions open.  This satisfies the
preconditions claim C8 states (2 effective sites, every open-region site has
an incident ridge, 2-D points). -/
noncomputable def D2 : Diagram :=
  { pointsDim := 2, points := [((0 : ℝ), (0 : ℝ)), ((1 : ℝ), (0 : ℝ))], vertices := [],
    ridge_points := [(0, 1)], ridge_vertices := [(-1, -1)], point_region := [0, 1],
    regions := [[-1], [-1]] }

/-- The Voronoi diagram of the right triangle of sites `(0,0)`, `(8,0)`,
`(0,6)`: one Voronoi vertex, the circumcentre `(4,3)`; three ridges, each a
ray from that vertex; all three regions open.  (This is the diagram scipy
produces for these sites, up to the unspecified order of rows.) -/
noncomputable def D3 : Diagram :=
  { pointsDim := 2,
    points := [((0 : ℝ), (0 : ℝ)), ((8 : ℝ), (0 : ℝ)), ((0 : ℝ), (6 : ℝ))],
    vertices := [((4 : ℝ), (3 : ℝ))],
    ridge_points := [(0, 1), (0, 2), (1, 2)],
    ridge_vertices := [(-1, 0), (-1, 0), (-1, 0)],
    point_region := [0, 1, 2],
    regions := [[-1, 0], [-1, 0], [-1, 0]] }

/-- The Voronoi diagram of the five sites `(5,5)` (listed first, an interior
site with a bounded square cell) and the four corners `(0,0)`, `(10,0)`,
`(10,10)`, `(0,10)`.  The bounded cell `[w1, w2, w3, w0]` is listed in a
consistently wound (counter-clockwise) cyclic order that does not start at the
vertex of smallest angle. -/
noncomputable def Dsq : Diagram :=
  { pointsDim := 2,
    points := [((5 : ℝ), (5 : ℝ)), ((0 : ℝ), (0 : ℝ)), ((10 : ℝ), (0 : ℝ)),
      ((10 : ℝ), (10 : ℝ)), ((0 : ℝ), (10 : ℝ))],
    vertices := [((5 : ℝ), (0 : ℝ)), ((10 : ℝ), (5 : ℝ)), ((5 : ℝ), (10 : ℝ)),
      ((0 : ℝ), (5 : ℝ))],
    ridge_points := [(0, 1), (0, 2), (0, 3), (0, 4), (1, 2), (2, 3), (3, 4), (4, 1)],
    ridge_vertices := [(0, 3), (0, 1), (1, 2), (2, 3), (-1, 0), (-1, 1), (-1, 2), (-1, 3)],
    point_region := [0, 1, 2, 3, 4],
    regions := [[1, 2, 3, 0], [-1, 0, 3], [-1, 0, 1], [-1, 1, 2], [-1, 2, 3]] }

/-! ### Basic lemmas about the indexing and monad plumbing -/

/-- Bind on a successful `Except` computation. -/
@[simp] theorem ebind_ok (a : α) (f : α → Except PyErr β) :
    (Except.ok a >>= f : Except PyErr β) = f a := rfl

/-- Bind on a failed `Except` computation. -/
@[simp] theorem ebind_err (e : PyErr) (f : α → Except PyErr β) :
    (Except.error e >>= f : Except PyErr β) = .error e := rfl

/-- Map on a successful `Except` computation. -/
@[simp] theorem emap_ok (a : α) (f : α → β) :
    (Except.ok a).map f = (Except.ok (f a) : Except PyErr β) := rfl

/-- Map on a failed `Except` computation. -/
@[simp] theorem emap_err (e : PyErr) (f : α → β) :
    ((Except.error e : Except PyErr α).map f : Except PyErr β) = .error e := rfl

/-- Branchwise description of Python indexing. -/
theorem pyGet_eq (l : List α) (i : ℤ) :
    pyGet l i = if i < 0 then
      (if i + l.length < 0 then none else l.get? (i + l.length).toNat)
    else l.get? i.toNat := by
  unfold pyGet
  by_cases hi : i < 0
  · simp [hi]
  · simp [hi, not_lt.1 hi]

/-- Python indexing at a nonnegative index is plain list lookup. -/
theorem pyGet_nonneg (l : List α) {i : ℤ} (h0 : 0 ≤ i) : pyGet l i = l.get? i.toNat := by
  rw [pyGet_eq, if_neg (not_lt.2 h0)]

/-- Python indexing at a natural-number index is plain list lookup. -/
theorem pyGet_natCast (l : List α) (n : ℕ) : pyGet l (n : ℤ) = l.get? n := by
  rw [pyGet_nonneg l (Int.natCast_nonneg n)]
  simp

/-- A successful Python lookup returns a member of the list. -/
theorem pyGet_mem {l : List α} {i : ℤ} {a : α} (h : pyGet l i = some a) : a ∈ l := by
  rw [pyGet_eq] at h
  split at h
  · split at h
    · exact absurd h (by simp)
    · exact List.get?_mem h
  · exact List.get?_mem h

/-- `getIdx` succeeds exactly on successful Python lookups. -/
theorem getIdx_eq_ok {l : List α} {i : ℤ} {a : α} :
    getIdx l i = .ok a ↔ pyGet l i = some a := by
  unfold getIdx
  cases h : pyGet l i <;> simp [h]

/-- `getIdx` fails exactly on failing Python lookups. -/
theorem getIdx_eq_err {l : List α} {i : ℤ} {e : PyErr} :
    getIdx l i = .error e ↔ pyGet l i = none ∧ e = .indexError := by
  unfold getIdx
  cases h : pyGet l i <;> simp [h, eq_comm]

/-- `getIdx` at an in-range nonnegative index succeeds with the list entry. -/
theorem getIdx_ok_of_lt {l : List α} {i : ℤ} (h0 : 0 ≤ i) (h1 : i.toNat < l.length) :
    getIdx l i = .ok (l.get ⟨i.toNat, h1⟩) := by
  rw [getIdx_eq_ok, pyGet_nonneg l h0]
  exact List.get?_eq_get h1

/-- `mapGet` on the empty index list. -/
@[simp] theorem mapGet_nil (l : List α) : mapGet l [] = .ok [] := rfl

/-- `mapGet` unfolding on a cons cell. -/
theorem mapGet_cons (l : List α) (v : ℤ) (vs : List ℤ) :
    mapGet l (v :: vs) =
      (getIdx l v) >>= fun a => (mapGet l vs) >>= fun rest => .ok (a :: rest) := rfl

/-- A successful `mapGet` is the in-order list of successful lookups. -/
theorem mapGet_forall₂ {l : List α} :
    ∀ {vs : List ℤ} {ps : List α}, mapGet l vs = .ok ps →
      List.Forall₂ (fun v p => pyGet l v = some p) vs ps := by
  intro vs
  induction vs with
  | nil => intro ps h; cases h; exact .nil
  | cons v vs ih =>
    intro ps h
    rw [mapGet_cons] at h
    cases hg : getIdx l v with
    | error e => rw [hg] at h; simp at h
    | ok a =>
      rw [hg] at h
      cases hm : mapGet l vs with
      | error e => rw [hm] at h; simp at h
      | ok rest =>
        rw [hm] at h
        simp only [ebind_ok] at h
        cases h
        exact .cons (getIdx_eq_ok.1 hg) (ih hm)

/-- Values relating to some index list by successful lookups are members. -/
theorem forall₂_pyGet_mem {l : List α} {vs : List ℤ} {ps : List α}
    (hf : List.Forall₂ (fun v p => pyGet l v = some p) vs ps) : ∀ p ∈ ps, p ∈ l := by
  induction hf with
  | nil => intro p hp; cases hp
  | cons hrel _ ih =>
    intro p hp
    cases hp with
    | head => exact pyGet_mem hrel
    | tail _ hp2 => exact ih p hp2

/-- Every point a successful `mapGet` returns is an entry of the table. -/
theorem mapGet_mem {l : List α} {vs : List ℤ} {ps : List α} (h : mapGet l vs = .ok ps) :
    ∀ p ∈ ps, p ∈ l :=
  forall₂_pyGet_mem (mapGet_forall₂ h)

/-- `mapGet` succeeds when every index is nonnegative and in range. -/
theorem mapGet_ok_of_bounds {l : List α} :
    ∀ {vs : List ℤ}, (∀ v ∈ vs, 0 ≤ v ∧ v.toNat < l.length) → ∃ ps, mapGet l vs = .ok ps := by
  intro vs
  induction vs with
  | nil => exact fun _ => ⟨[], rfl⟩
  | cons v vs ih =>
    intro hb
    obtain ⟨h0, h1⟩ := hb v (List.mem_cons_self v vs)
    obtain ⟨ps, hps⟩ := ih (fun w hw => hb w (List.mem_cons_of_mem v hw))
    exact ⟨_, by rw [mapGet_cons, getIdx_ok_of_lt h0 h1, ebind_ok, hps, ebind_ok]⟩

/-- Two `mapGet` computations over pointwise-equal lookups are equal. -/
theorem mapGet_congr {l l' : List α} {vs vs' : List ℤ}
    (hf : List.Forall₂ (fun a b => pyGet l a = pyGet l' b) vs vs') :
    mapGet l vs = mapGet l' vs' := by
  induction hf with
  | nil => rfl
  | @cons a b l₁ l₂ hrel _ ih =>
    have hg : getIdx l a = getIdx l' b := by unfold getIdx; rw [hrel]
    rw [mapGet_cons, mapGet_cons, ih, hg]

/-- Lookup in an extended table agrees with lookup in the original table on
in-range nonnegative indices. -/
theorem pyGet_append_left {l : List α} (rest : List α) {i : ℤ} (h0 : 0 ≤ i)
    (h1 : i.toNat < l.length) : pyGet (l ++ rest) i = pyGet l i := by
  rw [pyGet_nonneg _ h0, pyGet_nonneg _ h0, List.get?_append h1]

/-- Lookup in an appended table at an offset index reads the appended part. -/
theorem pyGet_append_right (l rest : List α) (k : ℕ) :
    pyGet (l ++ rest) ((l.length + k : ℕ) : ℤ) = rest.get? k := by
  rw [pyGet_natCast, List.get?_append_right (Nat.le_add_right _ _)]
  simp

/-- Membership step for one iteration of the `all_ridges` construction. -/
theorem ridgeFoldStep_mem {p : ℕ} {acc : List (ℕ × ℤ × ℤ)} {y : (ℕ × ℕ) × ℤ × ℤ}
    {x : ℕ × ℤ × ℤ}
    (hx : x ∈ (let acc2 := if y.1.1 = p then acc ++ [(y.1.2, y.2.1, y.2.2)] else acc
               if y.1.2 = p then acc2 ++ [(y.1.1, y.2.1, y.2.2)] else acc2)) :
    x ∈ acc ∨ (y.1.1 = p ∧ x = (y.1.2, y.2.1, y.2.2)) ∨
      (y.1.2 = p ∧ x = (y.1.1, y.2.1, y.2.2)) := by
  dsimp only at hx
  by_cases h2 : y.1.2 = p
  · rw [if_pos h2] at hx
    rcases List.mem_append.1 hx with hx2 | hx2
    · by_cases h1 : y.1.1 = p
      · rw [if_pos h1] at hx2
        rcases List.mem_append.1 hx2 with hx3 | hx3
        · exact Or.inl hx3
        · exact Or.inr (Or.inl ⟨h1, List.mem_singleton.1 hx3⟩)
      · rw [if_neg h1] at hx2; exact Or.inl hx2
    · exact Or.inr (Or.inr ⟨h2, List.mem_singleton.1 hx2⟩)
  · rw [if_neg h2] at hx
    by_cases h1 : y.1.1 = p
    · rw [if_pos h1] at hx
      rcases List.mem_append.1 hx with hx2 | hx2
      · exact Or.inl hx2
      · exact Or.inr (Or.inl ⟨h1, List.mem_singleton.1 hx2⟩)
    · rw [if_neg h1] at hx; exact Or.inl hx

/-- Membership in the `all_ridges` fold, generalized over the accumulator. -/
theorem ridgeFold_mem (p : ℕ) :
    ∀ (l : List ((ℕ × ℕ) × ℤ × ℤ)) (acc : List (ℕ × ℤ × ℤ)) (x : ℕ × ℤ × ℤ),
      x ∈ l.foldl
        (fun acc x =>
          let acc2 := if x.1.1 = p then acc ++ [(x.1.2, x.2.1, x.2.2)] else acc
          if x.1.2 = p then acc2 ++ [(x.1.1, x.2.1, x.2.2)] else acc2) acc →
      x ∈ acc ∨ ∃ pr rv, (pr, rv) ∈ l ∧
        ((pr.1 = p ∧ x = (pr.2, rv.1, rv.2)) ∨ (pr.2 = p ∧ x = (pr.1, rv.1, rv.2))) := by
  intro l
  induction l with
  | nil => intro acc x hx; exact Or.inl hx
  | cons y l ih =>
    intro acc x hx
    rw [List.foldl_cons] at hx
    rcases ih _ x hx with hx2 | ⟨pr, rv, hmem, hcase⟩
    · rcases ridgeFoldStep_mem hx2 with hx3 | ⟨h1, hx3⟩ | ⟨h2, hx3⟩
      · exact Or.inl hx3
      · exact Or.inr ⟨y.1, y.2, List.mem_cons_self _ _, Or.inl ⟨h1, hx3⟩⟩
      · exact Or.inr ⟨y.1, y.2, List.mem_cons_self _ _, Or.inr ⟨h2, hx3⟩⟩
    · exact Or.inr ⟨pr, rv, List.mem_cons_of_mem _ hmem, hcase⟩

/-- Every entry of `allRidges vor p` comes from a ridge-table row containing
site `p`, paired with that row's vertex pair. -/
theorem allRidges_mem {vor : Diagram} {p : ℕ} {x : ℕ × ℤ × ℤ} (hx : x ∈ allRidges vor p) :
    ∃ pr rv, (pr, rv) ∈ vor.ridge_points.zip vor.ridge_vertices ∧
      ((pr.1 = p ∧ x = (pr.2, rv.1, rv.2)) ∨ (pr.2 = p ∧ x = (pr.1, rv.1, rv.2))) := by
  unfold allRidges at hx
  rcases ridgeFold_mem p _ [] x hx with h | h
  · cases h
  · exact h

/-- Under well-formedness, every `allRidges` entry has its neighbour site in
range, at least one finite vertex reference, and both references in range. -/
theorem allRidges_bounds {vor : Diagram} (hwf : WF vor) {p : ℕ} {x : ℕ × ℤ × ℤ}
    (hx : x ∈ allRidges vor p) :
    x.1 < vor.points.length ∧ (0 ≤ x.2.1 ∨ 0 ≤ x.2.2) ∧
      x.2.1.toNat < vor.vertices.length ∧ x.2.2.toNat < vor.vertices.length := by
  obtain ⟨-, -, -, -, hrpoints, hrverts, -⟩ := hwf
  obtain ⟨pr, rv, hmem, hcase⟩ := allRidges_mem hx
  have hpr := hrpoints pr (List.of_mem_zip hmem).1
  have hrv := hrverts rv (List.of_mem_zip hmem).2
  rcases hcase with ⟨-, hx2⟩ | ⟨-, hx2⟩ <;> subst hx2
  · exact ⟨hpr.2, hrv.1, hrv.2.1, hrv.2.2⟩
  · exact ⟨hpr.1, hrv.1, hrv.2.1, hrv.2.2⟩

/-! ### Characterisation of the ridge loop -/

/-- The first component of the vertex pair after the Python swap
`if v2 < 0: v1, v2 = v2, v1`. -/
def swappedFirst (r : ℕ × ℤ × ℤ) : ℤ := if r.2.2 < 0 then r.2.2 else r.2.1

/-- The second component (the anchor reference) after the Python swap. -/
def swappedAnchor (r : ℕ × ℤ × ℤ) : ℤ := if r.2.2 < 0 then r.2.1 else r.2.2

/-- The far-point value computed in the body of the ridge loop, as a function
of the two site coordinates, the reference centre, the radius and the anchor
vertex coordinates. -/
noncomputable def farPointCode (P1 P2 center : Pt) (radius : ℝ) (anchor : Pt) : Pt :=
  let t0 := vsub P2 P1
  let t := sdiv t0 (norm2 t0)
  let n : Pt := (-t.2, t.1)
  let midpoint := sdiv (vadd P1 P2) 2
  let direction := smul (Real.sign (dot (vsub midpoint center) n)) n
  vadd anchor (vmuls direction radius)

/-- A ridge whose two vertex references are finite is skipped. -/
theorem ridgeStepR_skip {vor : Diagram} {center : Pt} {radius : ℝ} {p1 base : ℕ}
    (st : List Pt × List (ℤ × ℕ)) {r : ℕ × ℤ × ℤ}
    (h : 0 ≤ swappedFirst r ∧ 0 ≤ swappedAnchor r) :
    ridgeStepR vor center radius p1 base st r = .ok st := by
  unfold swappedFirst swappedAnchor at h
  unfold ridgeStepR
  dsimp only
  rw [if_pos h]

/-- A ridge with a sentinel reference appends one far point and records the
pair (anchor index, new index). -/
theorem ridgeStepR_append {vor : Diagram} {center : Pt} {radius : ℝ} {p1 base : ℕ}
    (st : List Pt × List (ℤ × ℕ)) {r : ℕ × ℤ × ℤ}
    (hng : ¬(0 ≤ swappedFirst r ∧ 0 ≤ swappedAnchor r))
    {P2 P1 anchor : Pt}
    (h2 : getIdx vor.points (r.1 : ℤ) = .ok P2)
    (h1 : getIdx vor.points (p1 : ℤ) = .ok P1)
    (ha : getIdx vor.vertices (swappedAnchor r) = .ok anchor) :
    ridgeStepR vor center radius p1 base st r =
      .ok (st.1 ++ [farPointCode P1 P2 center radius anchor],
        st.2 ++ [(swappedAnchor r, base + st.1.length)]) := by
  unfold swappedAnchor at ha
  unfold swappedFirst swappedAnchor at hng
  unfold ridgeStepR farPointCode
  dsimp only
  rw [if_neg hng, h2]
  simp only [ebind_ok]
  rw [h1]
  simp only [ebind_ok]
  rw [ha]
  rfl

/-- Under the ridge bounds of a well-formed diagram, one ridge step either
skips or appends a far point anchored at an in-range nonnegative reference. -/
theorem ridgeStepR_ok {vor : Diagram} {center : Pt} {radius : ℝ} {p1 base : ℕ}
    {r : ℕ × ℤ × ℤ}
    (hb : r.1 < vor.points.length ∧ (0 ≤ r.2.1 ∨ 0 ≤ r.2.2) ∧
      r.2.1.toNat < vor.vertices.length ∧ r.2.2.toNat < vor.vertices.length)
    (hp1 : p1 < vor.points.length) (st : List Pt × List (ℤ × ℕ)) :
    ridgeStepR vor center radius p1 base st r = .ok st ∨
    ∃ far, 0 ≤ swappedAnchor r ∧ (swappedAnchor r).toNat < vor.vertices.length ∧
      ridgeStepR vor center radius p1 base st r =
        .ok (st.1 ++ [far], st.2 ++ [(swappedAnchor r, base + st.1.length)]) := by
  by_cases hg : 0 ≤ swappedFirst r ∧ 0 ≤ swappedAnchor r
  · exact Or.inl (ridgeStepR_skip st hg)
  · have hanchor0 : 0 ≤ swappedAnchor r := by
      unfold swappedFirst swappedAnchor at hg
      unfold swappedAnchor
      by_cases hc : r.2.2 < 0
      · rw [if_pos hc]
        rcases hb.2.1 with h | h
        · exact h
        · omega
      · rw [if_neg hc]
        omega
    have hanchorlt : (swappedAnchor r).toNat < vor.vertices.length := by
      unfold swappedAnchor
      by_cases hc : r.2.2 < 0
      · rw [if_pos hc]; exact hb.2.2.1
      · rw [if_neg hc]; exact hb.2.2.2
    have h2 := getIdx_ok_of_lt (l := vor.points) (Int.natCast_nonneg r.1) (by simpa using hb.1)
    have h1 := getIdx_ok_of_lt (l := vor.points) (Int.natCast_nonneg p1) (by simpa using hp1)
    have ha := getIdx_ok_of_lt (l := vor.vertices) hanchor0 hanchorlt
    exact Or.inr ⟨_, hanchor0, hanchorlt, ridgeStepR_append st hg h2 h1 ha⟩

/-- Invariant of the ridge-loop state: as many recorded pairs as appended far
points, every recorded anchor reference nonnegative and in vertex-table range,
and the `k`-th recorded new index equal to `base + k`. -/
def StOK (vor : Diagram) (base : ℕ) (st : List Pt × List (ℤ × ℕ)) : Prop :=
  st.2.length = st.1.length ∧
  ∀ k pr, st.2.get? k = some pr →
    0 ≤ pr.1 ∧ pr.1.toNat < vor.vertices.length ∧ pr.2 = base + k

/-- The empty ridge-loop state satisfies the invariant. -/
theorem StOK_nil (vor : Diagram) (base : ℕ) : StOK vor base ([], []) := by
  exact ⟨rfl, fun k pr hk => by cases k <;> cases hk⟩

/-- The invariant is preserved by appending one far point. -/
theorem StOK_append {vor : Diagram} {base : ℕ} {st : List Pt × List (ℤ × ℕ)} {far : Pt}
    {w2 : ℤ} (h : StOK vor base st) (h0 : 0 ≤ w2) (h1 : w2.toNat < vor.vertices.length) :
    StOK vor base (st.1 ++ [far], st.2 ++ [(w2, base + st.1.length)]) := by
  constructor
  · simp [h.1]
  · intro k pr hk
    by_cases hlt : k < st.2.length
    · rw [List.get?_append hlt] at hk
      exact h.2 k pr hk
    · have hk1 : k < st.2.length + 1 := by
        have := (List.get?_eq_some.1 hk).1
        simpa using this
      have hk2 : k = st.2.length := by omega
      subst hk2
      rw [List.get?_append_right (le_refl _)] at hk
      simp only [Nat.sub_self, List.get?] at hk
      cases hk
      exact ⟨h0, h1, by rw [h.1]⟩

/-- Unfolding equation of the ridge loop on the empty ridge list. -/
theorem ridgeLoopR_nil (vor : Diagram) (center : Pt) (radius : ℝ) (p1 base : ℕ)
    (st : List Pt × List (ℤ × ℕ)) : ridgeLoopR vor center radius p1 base [] st = .ok st := rfl

/-- Unfolding equation of the ridge loop on a cons cell. -/
theorem ridgeLoopR_cons (vor : Diagram) (center : Pt) (radius : ℝ) (p1 base : ℕ)
    (r : ℕ × ℤ × ℤ) (rest : List (ℕ × ℤ × ℤ)) (st : List Pt × List (ℤ × ℕ)) :
    ridgeLoopR vor center radius p1 base (r :: rest) st =
      (ridgeStepR vor center radius p1 base st r) >>= fun st2 =>
        ridgeLoopR vor center radius p1 base rest st2 := rfl

/-- The ridge loop succeeds on well-formed ridge data and preserves the state
invariant. -/
theorem ridgeLoopR_ok {vor : Diagram} {center : Pt} {radius : ℝ} {p1 base : ℕ}
    (hp1 : p1 < vor.points.length) :
    ∀ (ridges : List (ℕ × ℤ × ℤ)) (st : List Pt × List (ℤ × ℕ)),
      (∀ r ∈ ridges, r.1 < vor.points.length ∧ (0 ≤ r.2.1 ∨ 0 ≤ r.2.2) ∧
        r.2.1.toNat < vor.vertices.length ∧ r.2.2.toNat < vor.vertices.length) →
      StOK vor base st →
      ∃ st2, ridgeLoopR vor center radius p1 base ridges st = .ok st2 ∧ StOK vor base st2 := by
  intro ridges
  induction ridges with
  | nil => exact fun st _ hst => ⟨st, rfl, hst⟩
  | cons r rest ih =>
    intro st hb hst
    rcases ridgeStepR_ok (hb r (List.mem_cons_self r rest)) hp1 st with hskip |
      ⟨far, h0, h1, happ⟩
    · obtain ⟨st2, hrun, hst2⟩ := ih st (fun x hx => hb x (List.mem_cons_of_mem r hx)) hst
      exact ⟨st2, by rw [ridgeLoopR_cons, hskip, ebind_ok]; exact hrun, hst2⟩
    · obtain ⟨st2, hrun, hst2⟩ :=
        ih _ (fun x hx => hb x (List.mem_cons_of_mem r hx)) (StOK_append hst h0 h1)
      exact ⟨st2, by rw [ridgeLoopR_cons, happ, ebind_ok]; exact hrun, hst2⟩

/-- Every index the Python loop appends to `region_vertices` from the recorded
pairs is either a recorded anchor or a recorded new index. -/
theorem interleavePts_mem {pts : List (ℤ × ℕ)} {v : ℤ} (hv : v ∈ interleavePts pts) :
    ∃ pr ∈ pts, v = pr.1 ∨ v = (pr.2 : ℤ) := by
  induction pts with
  | nil => cases hv
  | cons pr rest ih =>
    rcases List.mem_cons.1 hv with h | hv2
    · exact ⟨pr, List.mem_cons_self _ _, Or.inl h⟩
    · rcases List.mem_cons.1 hv2 with h | hv3
      · exact ⟨pr, List.mem_cons_self _ _, Or.inr h⟩
      · obtain ⟨pr2, hm, hc⟩ := ih hv3
        exact ⟨pr2, List.mem_cons_of_mem _ hm, hc⟩

/-- Membership form of the state invariant. -/
theorem StOK_mem {vor : Diagram} {base : ℕ} {st : List Pt × List (ℤ × ℕ)}
    (h : StOK vor base st) {pr : ℤ × ℕ} (hm : pr ∈ st.2) :
    0 ≤ pr.1 ∧ pr.1.toNat < vor.vertices.length ∧ ∃ k, k < st.1.length ∧ pr.2 = base + k := by
  obtain ⟨k, hk⟩ := List.mem_iff_get?.1 hm
  obtain ⟨h0, h1, h2⟩ := h.2 k pr hk
  have hklt : k < st.2.length := (List.get?_eq_some.1 hk).1
  exact ⟨h0, h1, k, h.1 ▸ hklt, h2⟩

/-! ### Characterisation of the per-site body -/

/-- On a region whose vertex references are all finite, the body emits the
in-order lookup of the region's vertex list and appends nothing. -/
theorem processSite_finite {vor : Diagram} {center : Pt} {radius : ℝ} {tbl : List Pt}
    {p1 ridx : ℕ} {reg : List ℤ}
    (hreg : getIdx vor.regions (ridx : ℤ) = .ok reg)
    (hall : reg.all (fun v => decide (0 ≤ v)) = true) :
    processSite vor center radius tbl p1 ridx =
      (mapGet vor.vertices reg).map (fun poly => (poly, [])) := by
  unfold processSite
  rw [hreg]
  simp only [ebind_ok]
  rw [if_pos hall]
  cases h : mapGet vor.vertices reg <;> simp [h]

/-- On a region with a sentinel reference and a nonempty ridge index, the body
runs the ridge loop and sorts the looked-up region vertices by angle. -/
theorem processSite_open {vor : Diagram} {center : Pt} {radius : ℝ} {tbl : List Pt}
    {p1 ridx : ℕ} {reg : List ℤ}
    (hreg : getIdx vor.regions (ridx : ℤ) = .ok reg)
    (hall : reg.all (fun v => decide (0 ≤ v)) = false)
    (hkey : allRidges vor p1 ≠ []) :
    processSite vor center radius tbl p1 ridx =
      (ridgeLoopR vor center radius p1 tbl.length (allRidges vor p1) ([], [])) >>= fun res =>
        (mapGet (tbl ++ res.1)
          (reg.filter (fun v => decide (0 ≤ v)) ++ interleavePts res.2)).map
          (fun coords => (sortByAngle coords, res.1)) := by
  unfold processSite
  rw [hreg]
  simp only [ebind_ok]
  rw [if_neg (by simp [hall]), if_neg hkey]
  cases hloop : ridgeLoopR vor center radius p1 tbl.length (allRidges vor p1) ([], []) with
  | error e => simp
  | ok res =>
    simp only [ebind_ok]
    cases hmap : mapGet (tbl ++ res.1)
        (reg.filter (fun v => decide (0 ≤ v)) ++ interleavePts res.2) with
    | error e => simp [hmap]
    | ok coords => simp [hmap]

/-- On a region with a sentinel reference and no incident ridge, the body
raises `KeyError`. -/
theorem processSite_keyErr {vor : Diagram} {center : Pt} {radius : ℝ} {tbl : List Pt}
    {p1 ridx : ℕ} {reg : List ℤ}
    (hreg : getIdx vor.regions (ridx : ℤ) = .ok reg)
    (hall : reg.all (fun v => decide (0 ≤ v)) = false)
    (hkey : allRidges vor p1 = []) :
    processSite vor center radius tbl p1 ridx = .error .keyError := by
  unfold processSite
  rw [hreg]
  simp only [ebind_ok]
  rw [if_neg (by simp [hall]), if_pos hkey]

/-- Under well-formedness the per-site body succeeds whenever the extended
table is at least as long as the vertex table. -/
theorem processSite_ok {vor : Diagram} {center : Pt} {radius : ℝ} {tbl : List Pt}
    {p1 ridx : ℕ} (hwf : WF vor) (hp1 : p1 < vor.points.length)
    (hridx : ridx < vor.regions.length)
    (hkey : regionOpenAt vor ridx → allRidges vor p1 ≠ [])
    (htbl : vor.vertices.length ≤ tbl.length) :
    ∃ poly fars, processSite vor center radius tbl p1 ridx = .ok (poly, fars) := by
  have hregions := hwf.2.2.2.1
  have hget : vor.regions.get? ridx = some (vor.regions.get ⟨ridx, hridx⟩) :=
    List.get?_eq_get hridx
  set reg := vor.regions.get ⟨ridx, hridx⟩ with hregdef
  have hmemreg : reg ∈ vor.regions := List.get_mem _ _ _
  have hreg : getIdx vor.regions (ridx : ℤ) = .ok reg := by
    rw [getIdx_eq_ok, pyGet_natCast]
    exact hget
  have hbnd : ∀ v ∈ reg, v.toNat < vor.vertices.length := hregions reg hmemreg
  by_cases hall : reg.all (fun v => decide (0 ≤ v)) = true
  · obtain ⟨ps, hps⟩ := mapGet_ok_of_bounds (l := vor.vertices)
      (fun v hv => ⟨by simpa using List.all_eq_true.1 hall v hv, hbnd v hv⟩)
    refine ⟨ps, [], ?_⟩
    rw [processSite_finite hreg hall, hps]
    rfl
  · have hallf : reg.all (fun v => decide (0 ≤ v)) = false := by
      cases h : reg.all (fun v => decide (0 ≤ v))
      · rfl
      · exact absurd h hall
    have hopen : regionOpenAt vor ridx := by
      obtain ⟨v, hv, hvf⟩ := List.all_eq_false.1 hallf
      have hvneg : v < 0 := by simpa using hvf
      refine ⟨v, ?_, hvneg⟩
      rw [List.getD_eq_get?, hget]
      exact hv
    have hkey2 := hkey hopen
    obtain ⟨res, hloop, hst⟩ := ridgeLoopR_ok hp1 (allRidges vor p1) ([], [])
      (fun r hr => allRidges_bounds hwf hr) (StOK_nil vor tbl.length)
    have hrvb : ∀ v ∈ reg.filter (fun v => decide (0 ≤ v)) ++ interleavePts res.2,
        0 ≤ v ∧ v.toNat < (tbl ++ res.1).length := by
      intro v hv
      rcases List.mem_append.1 hv with hv2 | hv2
      · obtain ⟨hvm, hv0⟩ := List.mem_filter.1 hv2
        have h0 : (0 : ℤ) ≤ v := by simpa using hv0
        refine ⟨h0, ?_⟩
        have := hbnd v hvm
        simp only [List.length_append]
        omega
      · obtain ⟨pr, hpm, hc⟩ := interleavePts_mem hv2
        obtain ⟨h0, h1, k, hk, h2⟩ := StOK_mem hst hpm
        rcases hc with hc | hc
        · subst hc
          refine ⟨h0, ?_⟩
          simp only [List.length_append]
          omega
        · subst hc
          refine ⟨Int.natCast_nonneg pr.2, ?_⟩
          simp only [List.length_append, Int.toNat_natCast]
          omega
    obtain ⟨coords, hcoords⟩ := mapGet_ok_of_bounds hrvb
    refine ⟨sortByAngle coords, res.1, ?_⟩
    rw [processSite_open hreg hallf hkey2, hloop, ebind_ok, hcoords]
    rfl

/-- The per-site body propagates a failing region lookup. -/
theorem processSite_regErr {vor : Diagram} {center : Pt} {radius : ℝ} {tbl : List Pt}
    {p1 ridx : ℕ} {e : PyErr} (hreg : getIdx vor.regions (ridx : ℤ) = .error e) :
    processSite vor center radius tbl p1 ridx = .error e := by
  unfold processSite
  rw [hreg]
  rfl

/-- Every point of an emitted polygon is an entry of the updated table. -/
theorem processSite_mem {vor : Diagram} {center : Pt} {radius : ℝ} {tbl : List Pt}
    {p1 ridx : ℕ} {poly fars : List Pt}
    (h : processSite vor center radius tbl p1 ridx = .ok (poly, fars))
    (he : ∃ e, tbl = vor.vertices ++ e) :
    ∀ q ∈ poly, q ∈ tbl ++ fars := by
  cases hreg : getIdx vor.regions (ridx : ℤ) with
  | error e => rw [processSite_regErr hreg] at h; cases h
  | ok reg =>
    by_cases hall : reg.all (fun v => decide (0 ≤ v)) = true
    · rw [processSite_finite hreg hall] at h
      cases hmap : mapGet vor.vertices reg with
      | error e => rw [hmap] at h; cases h
      | ok ps =>
        rw [hmap, emap_ok] at h
        have h1 : ps = poly := congrArg Prod.fst (Except.ok.inj h)
        intro q hq
        obtain ⟨e, he2⟩ := he
        have hq2 : q ∈ vor.vertices := mapGet_mem hmap q (h1 ▸ hq)
        rw [he2]
        exact List.mem_append_left _ (List.mem_append_left _ hq2)
    · have hallf : reg.all (fun v => decide (0 ≤ v)) = false := by
        cases hb : reg.all (fun v => decide (0 ≤ v))
        · rfl
        · exact absurd hb hall
      by_cases hkey : allRidges vor p1 = []
      · rw [processSite_keyErr hreg hallf hkey] at h; cases h
      · rw [processSite_open hreg hallf hkey] at h
        cases hloop : ridgeLoopR vor center radius p1 tbl.length (allRidges vor p1)
            ([], []) with
        | error e => rw [hloop] at h; cases h
        | ok res =>
          rw [hloop, ebind_ok] at h
          cases hmap : mapGet (tbl ++ res.1)
              (reg.filter (fun v => decide (0 ≤ v)) ++ interleavePts res.2) with
          | error e => rw [hmap] at h; cases h
          | ok coords =>
            rw [hmap, emap_ok] at h
            have h1 : sortByAngle coords = poly := congrArg Prod.fst (Except.ok.inj h)
            have h2 : res.1 = fars := congrArg Prod.snd (Except.ok.inj h)
            intro q hq
            have hq2 : q ∈ coords := by
              have hperm := List.perm_insertionSort
                (fun a b => angleOf (centroidOf coords) a ≤ angleOf (centroidOf coords) b)
                coords
              exact hperm.mem_iff.1 (by rw [← h1] at hq; exact hq)
            exact h2 ▸ mapGet_mem hmap q hq2

/-- Unfolding equation of the site loop on the empty list. -/
theorem siteLoop_nil (vor : Diagram) (center : Pt) (radius : ℝ) (p1 : ℕ)
    (st : List (List Pt) × List Pt) : siteLoop vor center radius p1 [] st = .ok st := rfl

/-- Unfolding equation of the site loop on a cons cell. -/
theorem siteLoop_cons (vor : Diagram) (center : Pt) (radius : ℝ) (p1 : ℕ) (ridx : ℕ)
    (rest : List ℕ) (st : List (List Pt) × List Pt) :
    siteLoop vor center radius p1 (ridx :: rest) st =
      (processSite vor center radius st.2 p1 ridx) >>= fun pr =>
        siteLoop vor center radius (p1 + 1) rest (st.1 ++ [pr.1], st.2 ++ pr.2) := rfl

/-- The site loop only ever appends to the accumulated region list. -/
theorem siteLoop_out_extends {vor : Diagram} {center : Pt} {radius : ℝ} :
    ∀ (idxs : List ℕ) (i : ℕ) (st : List (List Pt) × List Pt) (out : List (List Pt))
      (tbl : List Pt), siteLoop vor center radius i idxs st = .ok (out, tbl) →
      ∃ more, out = st.1 ++ more := by
  intro idxs
  induction idxs with
  | nil =>
    intro i st out tbl h
    rw [siteLoop_nil] at h
    have h2 : st = (out, tbl) := Except.ok.inj h
    exact ⟨[], by rw [h2]; simp⟩
  | cons ridx rest ih =>
    intro i st out tbl h
    rw [siteLoop_cons] at h
    cases hps : processSite vor center radius st.2 i ridx with
    | error e => rw [hps] at h; cases h
    | ok pr =>
      rw [hps, ebind_ok] at h
      obtain ⟨more, hm⟩ := ih _ _ _ _ h
      exact ⟨pr.1 :: more, by rw [hm]; simp⟩

/-- Position `k` of the site loop's output is the polygon emitted by the
`k`-th per-site call (with the table the loop had reached at that point). -/
theorem siteLoop_get_ex {vor : Diagram} {center : Pt} {radius : ℝ} :
    ∀ (idxs : List ℕ) (i : ℕ) (st : List (List Pt) × List Pt) (out : List (List Pt))
      (tbl : List Pt), siteLoop vor center radius i idxs st = .ok (out, tbl) →
      ∀ k (hk : k < idxs.length),
        ∃ T poly fars, processSite vor center radius T (i + k) (idxs.get ⟨k, hk⟩) =
            .ok (poly, fars) ∧ out.get? (st.1.length + k) = some poly := by
  intro idxs
  induction idxs with
  | nil => intro i st out tbl h k hk; exact absurd hk (by simp)
  | cons ridx rest ih =>
    intro i st out tbl h k hk
    rw [siteLoop_cons] at h
    cases hps : processSite vor center radius st.2 i ridx with
    | error e => rw [hps] at h; cases h
    | ok pr =>
      rw [hps, ebind_ok] at h
      cases k with
      | zero =>
        obtain ⟨more, hm⟩ := siteLoop_out_extends _ _ _ _ _ h
        refine ⟨st.2, pr.1, pr.2, by simpa using hps, ?_⟩
        rw [hm]
        simp only [List.append_assoc, Nat.add_zero]
        rw [List.get?_append_right (le_refl _)]
        simp
      | succ k2 =>
        have hk2 : k2 < rest.length := by simpa using hk
        obtain ⟨T, poly, fars, hpoly, hget⟩ := ih _ _ _ _ h k2 hk2
        refine ⟨T, poly, fars, ?_, ?_⟩
        · rw [show i + (k2 + 1) = i + 1 + k2 by omega]
          simpa using hpoly
        · rw [show st.1.length + (k2 + 1) = (st.1 ++ [pr.1]).length + k2 by
            simp only [List.length_append, List.length_cons, List.length_nil]; omega]
          simpa using hget

/-- Every point of every polygon the site loop emits is in the final table. -/
theorem siteLoop_mem {vor : Diagram} {center : Pt} {radius : ℝ} :
    ∀ (idxs : List ℕ) (i : ℕ) (st : List (List Pt) × List Pt) (out : List (List Pt))
      (tbl : List Pt),
      (∃ e, st.2 = vor.vertices ++ e) →
      (∀ poly ∈ st.1, ∀ q ∈ poly, q ∈ st.2) →
      siteLoop vor center radius i idxs st = .ok (out, tbl) →
      ∀ poly ∈ out, ∀ q ∈ poly, q ∈ tbl := by
  intro idxs
  induction idxs with
  | nil =>
    intro i st out tbl _ hacc h
    rw [siteLoop_nil] at h
    have h2 : st = (out, tbl) := Except.ok.inj h
    intro poly hpoly q hq
    have hpoly2 : poly ∈ st.1 := by rw [h2]; exact hpoly
    have hmem := hacc poly hpoly2 q hq
    rw [h2] at hmem
    exact hmem
  | cons ridx rest ih =>
    intro i st out tbl he hacc h
    rw [siteLoop_cons] at h
    cases hps : processSite vor center radius st.2 i ridx with
    | error e => rw [hps] at h; cases h
    | ok pr =>
      rw [hps, ebind_ok] at h
      obtain ⟨e, he2⟩ := he
      refine ih _ _ _ _ ⟨e ++ pr.2, by rw [he2]; simp⟩ ?_ h
      intro poly hpoly q hq
      rcases List.mem_append.1 hpoly with hpoly2 | hpoly2
      · exact List.mem_append_left _ (hacc poly hpoly2 q hq)
      · have hpr : poly = pr.1 := List.mem_singleton.1 hpoly2
        exact processSite_mem (by simpa using hps) ⟨e, he2⟩ q (hpr ▸ hq)

/-- The site loop succeeds on a well-formed diagram and emits one polygon per
processed site. -/
theorem siteLoop_ok {vor : Diagram} {center : Pt} {radius : ℝ} (hwf : WF vor) :
    ∀ (idxs : List ℕ) (i : ℕ) (st : List (List Pt) × List Pt),
      (∀ k (hk : k < idxs.length), vor.point_region.get? (i + k) = some (idxs.get ⟨k, hk⟩)) →
      (∃ e, st.2 = vor.vertices ++ e) →
      ∃ out tbl, siteLoop vor center radius i idxs st = .ok (out, tbl) ∧
        out.length = st.1.length + idxs.length ∧ ∃ e2, tbl = vor.vertices ++ e2 := by
  intro idxs
  induction idxs with
  | nil => exact fun i st _ he => ⟨st.1, st.2, rfl, by simp, he⟩
  | cons ridx rest ih =>
    intro i st hsuf he
    have h0 : vor.point_region.get? i = some ridx := by simpa using hsuf 0 (by simp)
    have hi_lt : i < vor.point_region.length := (List.get?_eq_some.1 h0).1
    have hp1 : i < vor.points.length := hwf.2.1 ▸ hi_lt
    have hmem : ridx ∈ vor.point_region := List.get?_mem h0
    have hridx : ridx < vor.regions.length := hwf.2.2.1 ridx hmem
    have hgetd : vor.point_region.getD i 0 = ridx := by
      rw [List.getD_eq_get?, h0]
      rfl
    have hkey : regionOpenAt vor ridx → allRidges vor i ≠ [] := by
      intro hop
      exact hwf.2.2.2.2.2.2 i hi_lt (hgetd ▸ hop)
    obtain ⟨e, he2⟩ := he
    have htbl : vor.vertices.length ≤ st.2.length := by rw [he2]; simp
    obtain ⟨poly, fars, hps⟩ := processSite_ok hwf hp1 hridx hkey htbl
    obtain ⟨out, tbl, hrun, hlen, he3⟩ := ih (i + 1) (st.1 ++ [poly], st.2 ++ fars)
      (fun k hk => by
        have hs := hsuf (k + 1) (by simpa using Nat.succ_lt_succ hk)
        rw [show i + (k + 1) = i + 1 + k by omega] at hs
        simpa using hs)
      ⟨e ++ fars, by rw [he2]; simp⟩
    refine ⟨out, tbl, ?_, ?_, he3⟩
    · rw [siteLoop_cons, hps, ebind_ok]
      exact hrun
    · simp only [List.length_append, List.length_cons, List.length_nil] at hlen ⊢
      omega

/-- When a radius is supplied or the diagram has sites, radius resolution
succeeds with the `resolveRadius` value. -/
theorem resolveRadiusE_eq_ok {vor : Diagram} {radius? : Option ℝ}
    (hne : radius? = none → vor.points.length ≠ 0) :
    resolveRadiusE vor radius? = .ok (resolveRadius vor radius?) := by
  cases radius? with
  | none =>
    unfold resolveRadiusE
    rw [if_neg (hne rfl)]
  | some r => rfl

/-- A successfully resolved radius is the `resolveRadius` value. -/
theorem resolveRadiusE_ok_val {vor : Diagram} {radius? : Option ℝ} {rr : ℝ}
    (h : resolveRadiusE vor radius? = .ok rr) : rr = resolveRadius vor radius? := by
  cases radius? with
  | none =>
    unfold resolveRadiusE at h
    by_cases hz : vor.points.length = 0
    · rw [if_pos hz] at h
      cases h
    · rw [if_neg hz] at h
      exact (Except.ok.inj h).symm
  | some r => exact (Except.ok.inj h).symm

/-- Radius resolution fails exactly with ValueError, when no radius is
supplied and there are no sites (numpy's empty reduction). -/
theorem resolveRadiusE_err {vor : Diagram} {radius? : Option ℝ} {e : PyErr}
    (h : resolveRadiusE vor radius? = .error e) :
    e = .valueError ∧ radius? = none ∧ vor.points.length = 0 := by
  cases radius? with
  | none =>
    unfold resolveRadiusE at h
    by_cases hz : vor.points.length = 0
    · rw [if_pos hz] at h
      exact ⟨(Except.error.inj h).symm, rfl, hz⟩
    · rw [if_neg hz] at h
      cases h
  | some r => cases h

/-- On a 2-D diagram with a resolvable radius the run is the site loop
started on the initial state. -/
theorem voronoiRun_eq (vor : Diagram) (radius? : Option ℝ) (h : vor.pointsDim = 2)
    (hne : radius? = none → vor.points.length ≠ 0) :
    voronoiRun vor radius? =
      siteLoop vor (centroidOf vor.points) (resolveRadius vor radius?) 0 vor.point_region
        ([], vor.vertices) := by
  unfold voronoiRun
  rw [if_neg (by simp [h]), resolveRadiusE_eq_ok hne, ebind_ok]

/-- On a non-2-D diagram the run raises `ValueError` at once. -/
theorem voronoiRun_dim {vor : Diagram} {radius? : Option ℝ} (h : vor.pointsDim ≠ 2) :
    voronoiRun vor radius? = .error .valueError := by
  unfold voronoiRun
  rw [if_pos h]

/-- A successful site loop emits exactly one polygon per processed site. -/
theorem siteLoop_len {vor : Diagram} {center : Pt} {radius : ℝ} :
    ∀ (idxs : List ℕ) (i : ℕ) (st : List (List Pt) × List Pt) (out : List (List Pt))
      (tbl : List Pt), siteLoop vor center radius i idxs st = .ok (out, tbl) →
      out.length = st.1.length + idxs.length := by
  intro idxs
  induction idxs with
  | nil =>
    intro i st out tbl h
    rw [siteLoop_nil] at h
    have h2 : st = (out, tbl) := Except.ok.inj h
    rw [h2]
    simp
  | cons ridx rest ih =>
    intro i st out tbl h
    rw [siteLoop_cons] at h
    cases hps : processSite vor center radius st.2 i ridx with
    | error e => rw [hps] at h; cases h
    | ok pr =>
      rw [hps, ebind_ok] at h
      have := ih _ _ _ _ h
      simp only [List.length_append, List.length_cons, List.length_nil] at this ⊢
      omega

/-- A successful run was a 2-D run of the site loop with the resolved
radius. -/
theorem voronoiRun_ok_elim {vor : Diagram} {radius? : Option ℝ} {out : List (List Pt)}
    {tbl : List Pt} (h : voronoiRun vor radius? = .ok (out, tbl)) :
    vor.pointsDim = 2 ∧
      siteLoop vor (centroidOf vor.points) (resolveRadius vor radius?) 0 vor.point_region
        ([], vor.vertices) = .ok (out, tbl) := by
  unfold voronoiRun at h
  by_cases hdim : vor.pointsDim ≠ 2
  · rw [if_pos hdim] at h
    cases h
  · rw [if_neg hdim] at h
    cases hr : resolveRadiusE vor radius? with
    | error e =>
      rw [hr] at h
      simp only [ebind_err] at h
      cases h
    | ok rr =>
      rw [hr, ebind_ok] at h
      rw [resolveRadiusE_ok_val hr] at h
      exact ⟨not_not.1 hdim, h⟩

/-- A successful run of a well-formed diagram with at least one site (or a
supplied radius), with the output length and table structure. -/
theorem voronoiRun_ok {vor : Diagram} (hwf : WF vor) (radius? : Option ℝ)
    (hne : radius? = none → vor.points.length ≠ 0) :
    ∃ out tbl, voronoiRun vor radius? = .ok (out, tbl) ∧
      out.length = vor.points.length ∧ ∃ e, tbl = vor.vertices ++ e := by
  obtain ⟨out, tbl, hrun, hlen, he⟩ := siteLoop_ok hwf vor.point_region 0 ([], vor.vertices)
    (fun k hk => by rw [Nat.zero_add]; exact List.get?_eq_get hk) ⟨[], by simp⟩
  refine ⟨out, tbl, ?_, ?_, he⟩
  · rw [voronoiRun_eq vor radius? hwf.1 hne]
    exact hrun
  · rw [hlen, ← hwf.2.1]
    simp

/-- Every point of every polygon a successful run emits is an entry of the
final extended vertex table. -/
theorem voronoiRun_mem {vor : Diagram} {radius? : Option ℝ} {out : List (List Pt)}
    {tbl : List Pt} (h : voronoiRun vor radius? = .ok (out, tbl)) :
    ∀ poly ∈ out, ∀ q ∈ poly, q ∈ tbl :=
  siteLoop_mem _ _ _ _ _ ⟨[], by simp⟩ (by intro poly hp; cases hp)
    (voronoiRun_ok_elim h).2

/-- Position `k` of a successful run's output is the polygon of the `k`-th
per-site call. -/
theorem voronoiRun_get {vor : Diagram} {radius? : Option ℝ} {out : List (List Pt)}
    {tbl : List Pt} (h : voronoiRun vor radius? = .ok (out, tbl)) {k : ℕ}
    (hk : k < vor.point_region.length) :
    ∃ T poly fars, processSite vor (centroidOf vor.points) (resolveRadius vor radius?) T k
      (vor.point_region.get ⟨k, hk⟩) = .ok (poly, fars) ∧ out.get? k = some poly := by
  obtain ⟨T, poly, fars, h1, h2⟩ := siteLoop_get_ex _ _ _ _ _ (voronoiRun_ok_elim h).2 k hk
  exact ⟨T, poly, fars, by simpa using h1, by simpa using h2⟩

/-- Eliminating a failed bind: either the first computation failed with the
same error, or it succeeded and the continuation failed. -/
theorem ebind_err_elim {x : Except PyErr α} {f : α → Except PyErr β} {e : PyErr}
    (h : (x >>= f) = .error e) :
    x = .error e ∨ ∃ a, x = .ok a ∧ f a = .error e := by
  cases x with
  | error e2 =>
    rw [ebind_err] at h
    exact Or.inl (by rw [Except.error.inj h])
  | ok a => rw [ebind_ok] at h; exact Or.inr ⟨a, rfl, h⟩

/-- A failed checked index is always an `IndexError`. -/
theorem getIdx_err {l : List α} {i : ℤ} {e : PyErr}
    (h : getIdx l i = .error e) : e = .indexError := by
  unfold getIdx at h
  split at h
  · cases h
  · exact (Except.error.inj h).symm

/-- A failed in-order lookup is always an `IndexError`. -/
theorem mapGet_err {l : List α} {vs : List ℤ} {e : PyErr}
    (h : mapGet l vs = .error e) : e = .indexError := by
  induction vs with
  | nil => rw [mapGet_nil] at h; cases h
  | cons v rest ih =>
    rw [mapGet_cons] at h
    rcases ebind_err_elim h with hg | ⟨a, -, h⟩
    · exact getIdx_err hg
    rcases ebind_err_elim h with hm | ⟨r, -, h⟩
    · exact ih hm
    cases h

/-- A failed ridge step is always an `IndexError` (its only fallible
operations are index lookups). -/
theorem ridgeStepR_err {vor : Diagram} {center : Pt} {radius : ℝ} {p1 base : ℕ}
    {st : List Pt × List (ℤ × ℕ)} {r : ℕ × ℤ × ℤ} {e : PyErr}
    (h : ridgeStepR vor center radius p1 base st r = .error e) : e = .indexError := by
  unfold ridgeStepR at h
  dsimp only at h
  by_cases hc : 0 ≤ swappedFirst r ∧ 0 ≤ swappedAnchor r
  · unfold swappedFirst swappedAnchor at hc
    rw [if_pos hc] at h
    cases h
  · unfold swappedFirst swappedAnchor at hc
    rw [if_neg hc] at h
    cases h2 : getIdx vor.points (r.1 : ℤ) with
    | error e2 =>
      rw [h2, ebind_err] at h
      rw [← Except.error.inj h]
      exact getIdx_err h2
    | ok P2 =>
      rw [h2, ebind_ok] at h
      cases h1 : getIdx vor.points (p1 : ℤ) with
      | error e2 =>
        rw [h1, ebind_err] at h
        rw [← Except.error.inj h]
        exact getIdx_err h1
      | ok P1 =>
        rw [h1, ebind_ok] at h
        cases ha : getIdx vor.vertices (if r.2.2 < 0 then r.2.1 else r.2.2) with
        | error e2 =>
          rw [ha, ebind_err] at h
          rw [← Except.error.inj h]
          exact getIdx_err ha
        | ok anchor =>
          rw [ha, ebind_ok] at h
          cases h

/-- A failed ridge loop is always an `IndexError`. -/
theorem ridgeLoopR_err {vor : Diagram} {center : Pt} {radius : ℝ} {p1 base : ℕ} :
    ∀ {rs : List (ℕ × ℤ × ℤ)} {st : List Pt × List (ℤ × ℕ)} {e : PyErr},
      ridgeLoopR vor center radius p1 base rs st = .error e → e = .indexError := by
  intro rs
  induction rs with
  | nil =>
    intro st e h
    rw [ridgeLoopR_nil] at h
    cases h
  | cons r rest ih =>
    intro st e h
    rw [ridgeLoopR_cons] at h
    rcases ebind_err_elim h with h2 | ⟨st2, -, h⟩
    · exact ridgeStepR_err h2
    exact ih h

/-- A failed per-site call is a `KeyError` or an `IndexError`, never a
`ValueError`. -/
theorem processSite_err {vor : Diagram} {center : Pt} {radius : ℝ} {tbl : List Pt}
    {p1 ridx : ℕ} {e : PyErr}
    (h : processSite vor center radius tbl p1 ridx = .error e) :
    e = .keyError ∨ e = .indexError := by
  unfold processSite at h
  rcases ebind_err_elim h with hg | ⟨vertices, -, h⟩
  · exact Or.inr (getIdx_err hg)
  split at h
  · rcases ebind_err_elim h with hm | ⟨poly, -, h⟩
    · exact Or.inr (mapGet_err hm)
    cases h
  · split at h
    · exact Or.inl (Except.error.inj h).symm
    · rcases ebind_err_elim h with hr | ⟨res, -, h⟩
      · exact Or.inr (ridgeLoopR_err hr)
      dsimp only at h
      rcases ebind_err_elim h with hm | ⟨coords, -, h⟩
      · exact Or.inr (mapGet_err hm)
      cases h

/-- A failed site loop is a `KeyError` or an `IndexError`, never a
`ValueError`. -/
theorem siteLoop_err {vor : Diagram} {center : Pt} {radius : ℝ} :
    ∀ {idxs : List ℕ} {p1 : ℕ} {st : List (List Pt) × List Pt} {e : PyErr},
      siteLoop vor center radius p1 idxs st = .error e →
      e = .keyError ∨ e = .indexError := by
  intro idxs
  induction idxs with
  | nil =>
    intro p1 st e h
    rw [siteLoop_nil] at h
    cases h
  | cons ridx rest ih =>
    intro p1 st e h
    rw [siteLoop_cons] at h
    rcases ebind_err_elim h with hp | ⟨pr, -, h⟩
    · exact processSite_err hp
    exact ih h

/-- On a diagram with no sites and no supplied radius, radius resolution
fails with numpy's zero-size-reduction `ValueError`. -/
theorem resolveRadiusE_none_empty {vor : Diagram} (h : vor.points.length = 0) :
    resolveRadiusE vor none = .error .valueError := by
  show (if vor.points.length = 0 then (Except.error PyErr.valueError : Except PyErr ℝ)
    else .ok (resolveRadius vor none)) = .error .valueError
  rw [if_pos h]

/-- The run raises `ValueError` exactly on a non-2-D input or on numpy's
zero-size `np.ptp` reduction (no radius supplied and no sites). -/
theorem voronoiRun_valueError (vor : Diagram) (radius? : Option ℝ) :
    voronoiRun vor radius? = .error .valueError ↔
      vor.pointsDim ≠ 2 ∨ (radius? = none ∧ vor.points.length = 0) := by
  constructor
  · intro h
    by_cases hdim : vor.pointsDim ≠ 2
    · exact Or.inl hdim
    unfold voronoiRun at h
    rw [if_neg hdim] at h
    cases hr : resolveRadiusE vor radius? with
    | error e =>
      obtain ⟨-, h1, h2⟩ := resolveRadiusE_err hr
      exact Or.inr ⟨h1, h2⟩
    | ok rr =>
      rw [hr, ebind_ok] at h
      rcases siteLoop_err h with h1 | h1 <;> cases h1
  · intro h
    by_cases hdim : vor.pointsDim ≠ 2
    · exact voronoiRun_dim hdim
    rcases h with h | ⟨hr, hlen⟩
    · exact absurd h hdim
    unfold voronoiRun
    rw [if_neg hdim]
    subst hr
    rw [resolveRadiusE_none_empty hlen, ebind_err]

/-- Mapping a function over an `Except` preserves and reflects errors. -/
theorem emap_err_iff {x : Except PyErr α} {f : α → β} {e : PyErr} :
    x.map f = .error e ↔ x = .error e := by
  cases x with
  | error e2 =>
    rw [emap_err]
    constructor <;> (intro h; rw [Except.error.inj h])
  | ok a =>
    rw [emap_ok]
    constructor <;> (intro h; cases h)

/-! ### The flattened maximum and minimum -/

/-- The seed of a `max`-fold bounds the result from below. -/
theorem le_foldl_max (l : List ℝ) : ∀ a : ℝ, a ≤ l.foldl max a := by
  induction l with
  | nil => exact fun a => le_refl a
  | cons x l ih => exact fun a => le_trans (le_max_left a x) (ih (max a x))

/-- Every element of the list bounds a `max`-fold from below. -/
theorem mem_le_foldl_max (l : List ℝ) : ∀ (a : ℝ), ∀ x ∈ l, x ≤ l.foldl max a := by
  induction l with
  | nil => intro a x hx; cases hx
  | cons y l ih =>
    intro a x hx
    rcases List.mem_cons.1 hx with h | h
    · subst h
      exact le_trans (le_max_right a x) (le_foldl_max l (max a x))
    · exact ih (max a y) x h

/-- `listMax` is an upper bound of the list. -/
theorem listMax_is_ub {l : List ℝ} : ∀ x ∈ l, x ≤ listMax l := by
  cases l with
  | nil => intro x hx; cases hx
  | cons h t =>
    intro x hx
    rcases List.mem_cons.1 hx with hh | hh
    · subst hh
      exact le_foldl_max t x
    · exact mem_le_foldl_max t h x hh

/-- The seed of a `min`-fold bounds the result from above. -/
theorem foldl_min_le (l : List ℝ) : ∀ a : ℝ, l.foldl min a ≤ a := by
  induction l with
  | nil => exact fun a => le_refl a
  | cons x l ih => exact fun a => le_trans (ih (min a x)) (min_le_left a x)

/-- Every element of the list bounds a `min`-fold from above. -/
theorem foldl_min_le_mem (l : List ℝ) : ∀ (a : ℝ), ∀ x ∈ l, l.foldl min a ≤ x := by
  induction l with
  | nil => intro a x hx; cases hx
  | cons y l ih =>
    intro a x hx
    rcases List.mem_cons.1 hx with h | h
    · subst h
      exact le_trans (foldl_min_le l (min a x)) (min_le_right a x)
    · exact ih (min a y) x h

/-- `listMin` is a lower bound of the list. -/
theorem listMin_is_lb {l : List ℝ} : ∀ x ∈ l, listMin l ≤ x := by
  cases l with
  | nil => intro x hx; cases hx
  | cons h t =>
    intro x hx
    rcases List.mem_cons.1 hx with hh | hh
    · subst hh
      exact foldl_min_le t x
    · exact foldl_min_le_mem t h x hh

/-- Openness of a region is decidable. -/
instance (vor : Diagram) (ridx : ℕ) : Decidable (regionOpenAt vor ridx) := by
  unfold regionOpenAt
  infer_instance

/-- Well-formedness is decidable, so it can be checked on concrete diagrams. -/
instance (vor : Diagram) : Decidable (WF vor) := by
  unfold WF
  infer_instance

/-! ### Claim C5: the default radius -/

/-- The default radius computed at the concrete diagram `Dr3` is twice the
flattened coordinate range, 2 · (11 − 0). -/
theorem Dr3_radius : resolveRadius Dr3 none = 22 := by
  unfold resolveRadius ptpPoints flatten2 Dr3 listMax listMin
  norm_num [List.foldr, List.foldl, max_def, min_def]

/-- The per-axis formula of the spec evaluated at `Dr3` is 2 · max(1, 1). -/
theorem Dr3_radiusSpec : radiusPerAxisSpec Dr3 = 2 := by
  unfold radiusPerAxisSpec Dr3 listMax listMin
  norm_num [List.map, List.foldl, max_def, min_def]

/-- Claim C5 as stated is false: on the well-formed diagram `Dr3` the radius
the code uses is `2 · (max over all coordinates − min over all coordinates)
= 22`, not the claimed `2 · max(x-range, y-range) = 2`. -/
theorem C5_counterexample :
    ¬ (∀ vor : Diagram, WF vor → resolveRadius vor none = radiusPerAxisSpec vor) := by
  intro hcl
  have h := hcl Dr3 (by decide)
  rw [Dr3_radius, Dr3_radiusSpec] at h
  norm_num at h

/-- Claim C5 amended: when no radius is supplied, the radius used is twice the
peak-to-peak of the flattened coordinate array — `listMax` / `listMin` being
genuine upper/lower bounds of all coordinates of both axes. -/
theorem C5_amended_flattened_ptp : ∀ vor : Diagram,
    resolveRadius vor none =
      2 * (listMax (flatten2 vor.points) - listMin (flatten2 vor.points)) ∧
    (∀ x ∈ flatten2 vor.points, x ≤ listMax (flatten2 vor.points)) ∧
    (∀ x ∈ flatten2 vor.points, listMin (flatten2 vor.points) ≤ x) := by
  intro vor
  refine ⟨?_, listMax_is_ub, listMin_is_lb⟩
  unfold resolveRadius ptpPoints
  ring

/-! ### Claim C9: determinism -/

/-- Claim C9: the builder is a pure function — two calls on equal inputs
return equal results. -/
theorem C9_deterministic : ∀ (vor1 vor2 : Diagram) (r1 r2 : Option ℝ), vor1 = vor2 →
    r1 = r2 → voronoi_finite_polygons_2d vor1 r1 = voronoi_finite_polygons_2d vor2 r2 := by
  intro vor1 vor2 r1 r2 h1 h2
  rw [h1, h2]

/-- Witness for C9 at the concrete diagram `Dtiny`. -/
theorem C9_deterministic_witness :
    voronoi_finite_polygons_2d Dtiny none = voronoi_finite_polygons_2d Dtiny none :=
  C9_deterministic Dtiny Dtiny none none rfl rfl

/-! ### Claim C10: the two source copies agree -/

/-- The two copies build the same per-site ridge index. -/
theorem dbg_allRidges_eq : Dbg.allRidges = allRidges := rfl

/-- The two copies resolve the default radius identically. -/
theorem dbg_resolveRadius_eq : Dbg.resolveRadius = resolveRadius := rfl

/-- The two copies resolve the default radius identically, errors included. -/
theorem dbg_resolveRadiusE_eq : Dbg.resolveRadiusE = resolveRadiusE := rfl

/-- The two copies perform the same ridge step. -/
theorem dbg_ridgeStepR_eq : Dbg.ridgeStepR = ridgeStepR := rfl

/-- The two copies run the same ridge loop. -/
theorem dbg_ridgeLoopR_eq : Dbg.ridgeLoopR = ridgeLoopR := by
  funext vor center radius p1 base ridges
  induction ridges with
  | nil => funext st; rfl
  | cons r rest ih =>
    funext st
    show (Dbg.ridgeStepR vor center radius p1 base st r) >>= _ = _
    rw [dbg_ridgeStepR_eq, ridgeLoopR_cons]
    cases ridgeStepR vor center radius p1 base st r with
    | error e => rfl
    | ok st2 => simp only [ebind_ok]; rw [ih]

/-- The two copies process one site identically. -/
theorem dbg_processSite_eq : Dbg.processSite = processSite := by
  unfold Dbg.processSite processSite
  rw [dbg_allRidges_eq, dbg_ridgeLoopR_eq]

/-- The two copies run the same site loop. -/
theorem dbg_siteLoop_eq : Dbg.siteLoop = siteLoop := by
  funext vor center radius p1 idxs
  induction idxs generalizing p1 with
  | nil => funext st; rfl
  | cons ridx rest ih =>
    funext st
    show (Dbg.processSite vor center radius st.2 p1 ridx) >>= _ = _
    rw [dbg_processSite_eq, siteLoop_cons]
    cases processSite vor center radius st.2 p1 ridx with
    | error e => rfl
    | ok pr => simp only [ebind_ok]; rw [ih]

/-- Claim C10: the `voronoi_finite_polygons_2d` of `debug_voronoi.py` and the
one of `generate_voronoi.py` are extensionally equal — on every input they
return the same result and the same error (the function bodies are
character-identical up to one docstring line). -/
theorem C10_copies_equal : ∀ (vor : Diagram) (radius? : Option ℝ),
    Dbg.voronoi_finite_polygons_2d vor radius? = voronoi_finite_polygons_2d vor radius? := by
  intro vor radius?
  unfold Dbg.voronoi_finite_polygons_2d voronoi_finite_polygons_2d
  unfold Dbg.voronoiRun voronoiRun
  rw [dbg_siteLoop_eq, dbg_resolveRadiusE_eq]

/-! ### Claim C6: no sentinel survives into the output -/

/-- Claim C6: on every input diagram on which the builder returns, every
point of every emitted polygon is an entry of the final extended vertex
table — i.e. an actual finite coordinate pair, never an "at infinity"
sentinel index (all vertex references resolved during the run were
nonnegative and in range, or the run would have failed). -/
theorem C6_no_sentinel_leak : ∀ (vor : Diagram) (radius? : Option ℝ)
    (out : List (List Pt)) (tbl : List Pt), voronoiRun vor radius? = .ok (out, tbl) →
    ∀ poly ∈ out, ∀ q ∈ poly, q ∈ tbl :=
  fun _ _ _ _ h => voronoiRun_mem h

/-- Witness for C6 at the concrete diagram `Dtiny`. -/
theorem C6_no_sentinel_leak_witness :
    voronoiRun Dtiny none =
      .ok ([[((1 : ℝ), (1 : ℝ))], [((1 : ℝ), (1 : ℝ))]], [((1 : ℝ), (1 : ℝ))]) ∧
    ∀ poly ∈ [[((1 : ℝ), (1 : ℝ))], [((1 : ℝ), (1 : ℝ))]],
      ∀ q ∈ poly, q ∈ [((1 : ℝ), (1 : ℝ))] :=
  ⟨rfl, C6_no_sentinel_leak Dtiny none _ _ rfl⟩

/-! ### Claim C8: error behaviour -/

/-- The preconditions exactly as claim C8 states them: at least 2 effective
sites, one region reference per site, and every site with an open region
incident to at least one ridge. -/
def C8Pre (vor : Diagram) : Prop :=
  2 ≤ vor.points.length ∧ vor.point_region.length = vor.points.length ∧
  (∀ i, i < vor.point_region.length → regionOpenAt vor (vor.point_region.getD i 0) →
    allRidges vor i ≠ [])

/-- The stated preconditions are decidable. -/
instance (vor : Diagram) : Decidable (C8Pre vor) := by
  unfold C8Pre
  infer_instance

/-- Claim C3: whenever the run returns, the polygon emitted for a site whose
region contains no sentinel is exactly the in-order lookup of that region's
vertex-index list in the vertex table — same order, no reordering, no
insertion, no mutation. -/
theorem C3_finite_passthrough : ∀ (vor : Diagram) (radius? : Option ℝ)
    (out : List (List Pt)) (tbl : List Pt), voronoiRun vor radius? = .ok (out, tbl) →
    ∀ (i : ℕ) (hi : i < vor.point_region.length) (reg : List ℤ),
      getIdx vor.regions ((vor.point_region.get ⟨i, hi⟩ : ℕ) : ℤ) = .ok reg →
      (∀ v ∈ reg, 0 ≤ v) →
      ∃ poly, mapGet vor.vertices reg = .ok poly ∧ out.get? i = some poly ∧
        List.Forall₂ (fun v q => pyGet vor.vertices v = some q) reg poly := by
  intro vor radius? out tbl h i hi reg hreg hnn
  obtain ⟨T, poly, fars, hps, hget⟩ := voronoiRun_get h hi
  have hall : reg.all (fun v => decide (0 ≤ v)) = true := by
    rw [List.all_eq_true]
    intro v hv
    simpa using hnn v hv
  rw [processSite_finite hreg hall] at hps
  cases hmap : mapGet vor.vertices reg with
  | error e => rw [hmap] at hps; cases hps
  | ok ps =>
    rw [hmap, emap_ok] at hps
    have h1 : ps = poly := congrArg Prod.fst (Except.ok.inj hps)
    refine ⟨ps, rfl, ?_, mapGet_forall₂ hmap⟩
    rw [hget, h1]

/-- Witness for C3 at the concrete diagram `Dtiny`, site 0. -/
theorem C3_finite_passthrough_witness :
    voronoiRun Dtiny none =
      .ok ([[((1 : ℝ), (1 : ℝ))], [((1 : ℝ), (1 : ℝ))]], [((1 : ℝ), (1 : ℝ))]) ∧
    ∃ poly, mapGet Dtiny.vertices [0] = .ok poly ∧
      [[((1 : ℝ), (1 : ℝ))], [((1 : ℝ), (1 : ℝ))]].get? 0 = some poly ∧
      List.Forall₂ (fun v q => pyGet Dtiny.vertices v = some q) [0] poly :=
  ⟨rfl, C3_finite_passthrough Dtiny none _ _ rfl 0 (by decide) [0] rfl
    (by intro v hv; rw [List.mem_singleton.1 hv])⟩

/-! ### Claim C4: the synthetic far point -/

/-- The far-point value the code computes equals the spec's formula: anchor
coordinates plus radius times the signed normal (the 90°-rotated normalized
tangent with the sign of its dot product against midpoint − centre). -/
theorem farPointCode_eq_spec (P1 P2 center anchor : Pt) (radius : ℝ) :
    farPointCode P1 P2 center radius anchor = farPointSpec anchor P1 P2 center radius := by
  unfold farPointCode farPointSpec signedNormalSpec normalizeSpec rot90 vadd vmuls smul
  dsimp only
  simp only [Prod.mk.injEq]
  exact ⟨by ring, by ring⟩

/-- Claim C4: for a ridge with exactly one sentinel vertex reference, the
ridge step appends to the extended table precisely the synthetic far point
`anchor + radius • signed_normal` of the spec, recording the new index paired
with the anchor's index. -/
theorem C4_far_point : ∀ (vor : Diagram) (center : Pt) (radius : ℝ) (p1 base : ℕ)
    (st : List Pt × List (ℤ × ℕ)) (r : ℕ × ℤ × ℤ) (P1 P2 anchor : Pt),
    ((r.2.1 < 0 ∧ 0 ≤ r.2.2) ∨ (0 ≤ r.2.1 ∧ r.2.2 < 0)) →
    getIdx vor.points (r.1 : ℤ) = .ok P2 →
    getIdx vor.points (p1 : ℤ) = .ok P1 →
    getIdx vor.vertices (swappedAnchor r) = .ok anchor →
    ridgeStepR vor center radius p1 base st r =
      .ok (st.1 ++ [farPointSpec anchor P1 P2 center radius],
        st.2 ++ [(swappedAnchor r, base + st.1.length)]) := by
  intro vor center radius p1 base st r P1 P2 anchor hone h2 h1 ha
  have hng : ¬(0 ≤ swappedFirst r ∧ 0 ≤ swappedAnchor r) := by
    unfold swappedFirst swappedAnchor
    rcases hone with ⟨ha1, ha2⟩ | ⟨ha1, ha2⟩
    · simp only [if_neg (not_lt.2 ha2)]
      intro hc
      omega
    · simp only [if_pos ha2]
      intro hc
      omega
  rw [ridgeStepR_append st hng h2 h1 ha, farPointCode_eq_spec]

/-- Witness for C4: the ridge between sites 0 and 1 of the triangle diagram
`D3`, processed for site 0. -/
theorem C4_far_point_witness :
    ridgeStepR D3 ((0 : ℝ), (0 : ℝ)) 5 0 1 ([], []) (1, -1, 0) =
      .ok ([farPointSpec ((4 : ℝ), (3 : ℝ)) ((0 : ℝ), (0 : ℝ)) ((8 : ℝ), (0 : ℝ))
        ((0 : ℝ), (0 : ℝ)) 5], [((0 : ℤ), 1)]) :=
  C4_far_point D3 ((0 : ℝ), (0 : ℝ)) 5 0 1 ([], []) (1, -1, 0) ((0 : ℝ), (0 : ℝ))
    ((8 : ℝ), (0 : ℝ)) ((4 : ℝ), (3 : ℝ)) (by decide) rfl rfl rfl

/-! ### Decomposition: a region's polygon does not depend on earlier appends -/

/-- Bounds of the anchor reference after the swap, in the proceed case. -/
theorem swappedAnchor_bounds {n : ℕ} {r : ℕ × ℤ × ℤ}
    (hor : 0 ≤ r.2.1 ∨ 0 ≤ r.2.2) (h1 : r.2.1.toNat < n) (h2 : r.2.2.toNat < n)
    (hg : ¬(0 ≤ swappedFirst r ∧ 0 ≤ swappedAnchor r)) :
    0 ≤ swappedAnchor r ∧ (swappedAnchor r).toNat < n := by
  unfold swappedFirst swappedAnchor at hg
  unfold swappedAnchor
  by_cases hc : r.2.2 < 0
  · simp only [if_pos hc] at hg ⊢
    rcases hor with h | h
    · exact ⟨h, h1⟩
    · omega
  · simp only [if_neg hc] at hg ⊢
    exact ⟨by omega, h2⟩

/-- Running the ridge loop over the same ridges from two base lengths that
differ by `d` produces the same far points, and recorded pairs whose new
indices differ by `d`. -/
theorem ridgeLoopR_shift {vor : Diagram} {center : Pt} {radius : ℝ} {p1 d : ℕ} :
    ∀ (ridges : List (ℕ × ℤ × ℤ)) (base : ℕ) (st st' : List Pt × List (ℤ × ℕ)),
      (∀ r ∈ ridges, r.1 < vor.points.length ∧ (0 ≤ r.2.1 ∨ 0 ≤ r.2.2) ∧
        r.2.1.toNat < vor.vertices.length ∧ r.2.2.toNat < vor.vertices.length) →
      p1 < vor.points.length →
      st.1 = st'.1 →
      List.Forall₂ (fun a b => a.1 = b.1 ∧ a.2 = b.2 + d) st.2 st'.2 →
      ∃ res res', ridgeLoopR vor center radius p1 (base + d) ridges st = .ok res ∧
        ridgeLoopR vor center radius p1 base ridges st' = .ok res' ∧
        res.1 = res'.1 ∧ List.Forall₂ (fun a b => a.1 = b.1 ∧ a.2 = b.2 + d) res.2 res'.2 := by
  intro ridges
  induction ridges with
  | nil => exact fun base st st' _ _ h1 h2 => ⟨st, st', rfl, rfl, h1, h2⟩
  | cons r rest ih =>
    intro base st st' hb hp1 h1 h2
    by_cases hg : 0 ≤ swappedFirst r ∧ 0 ≤ swappedAnchor r
    · obtain ⟨res, res', e1, e2, e3, e4⟩ :=
        ih base st st' (fun x hx => hb x (List.mem_cons_of_mem r hx)) hp1 h1 h2
      refine ⟨res, res', ?_, ?_, e3, e4⟩
      · rw [ridgeLoopR_cons, ridgeStepR_skip st hg, ebind_ok]; exact e1
      · rw [ridgeLoopR_cons, ridgeStepR_skip st' hg, ebind_ok]; exact e2
    · have hbr := hb r (List.mem_cons_self r rest)
      obtain ⟨h0, hlt⟩ := swappedAnchor_bounds hbr.2.1 hbr.2.2.1 hbr.2.2.2 hg
      have h2get := getIdx_ok_of_lt (l := vor.points) (Int.natCast_nonneg r.1)
        (by simpa using hbr.1)
      have h1get := getIdx_ok_of_lt (l := vor.points) (Int.natCast_nonneg p1)
        (by simpa using hp1)
      have haget := getIdx_ok_of_lt (l := vor.vertices) h0 hlt
      have happ := @ridgeStepR_append vor center radius p1 (base + d) st r hg _ _ _
        h2get h1get haget
      have happ' := @ridgeStepR_append vor center radius p1 base st' r hg _ _ _
        h2get h1get haget
      have hlen : st.1.length = st'.1.length := by rw [h1]
      obtain ⟨res, res', e1, e2, e3, e4⟩ :=
        ih base (st.1 ++ [_], st.2 ++ [(swappedAnchor r, base + d + st.1.length)])
          (st'.1 ++ [_], st'.2 ++ [(swappedAnchor r, base + st'.1.length)])
          (fun x hx => hb x (List.mem_cons_of_mem r hx)) hp1 (by rw [h1])
          (List.rel_append h2
            (List.Forall₂.cons ⟨rfl, by omega⟩ List.Forall₂.nil))
      refine ⟨res, res', ?_, ?_, e3, e4⟩
      · rw [ridgeLoopR_cons, happ, ebind_ok]; exact e1
      · rw [ridgeLoopR_cons, happ', ebind_ok]; exact e2

/-- Pointwise lookup equality between the interleaved index lists of the
shifted and the fresh ridge-loop runs. -/
theorem interleave_shift_pyGet {V e fars : List Pt} :
    ∀ (pts pts' : List (ℤ × ℕ)) (k0 : ℕ),
      List.Forall₂ (fun a b => a.1 = b.1 ∧ a.2 = b.2 + e.length) pts pts' →
      (∀ j pr, pts'.get? j = some pr → 0 ≤ pr.1 ∧ pr.1.toNat < V.length ∧
        pr.2 = V.length + (k0 + j)) →
      List.Forall₂ (fun a b => pyGet ((V ++ e) ++ fars) a = pyGet (V ++ fars) b)
        (interleavePts pts) (interleavePts pts') := by
  intro pts
  induction pts with
  | nil =>
    intro pts' k0 hf _
    cases hf
    exact List.Forall₂.nil
  | cons a pts ih =>
    intro pts' k0 hf hpos
    cases hf with
    | @cons _ b _ pts2 hab htail =>
      obtain ⟨hb0, hb1, hb2⟩ := hpos 0 b rfl
      have hVlen : V.length ≤ (V ++ e).length := by simp
      have hanchor : pyGet ((V ++ e) ++ fars) a.1 = pyGet (V ++ fars) b.1 := by
        rw [hab.1]
        rw [pyGet_append_left fars hb0 (by simp only [List.length_append]; omega),
          pyGet_append_left e hb0 hb1, pyGet_append_left fars hb0 hb1]
      have hidx : pyGet ((V ++ e) ++ fars) ((a.2 : ℕ) : ℤ) =
          pyGet (V ++ fars) ((b.2 : ℕ) : ℤ) := by
        have ha2 : a.2 = (V ++ e).length + k0 := by
          have := hab.2
          simp only [List.length_append]
          omega
        have hb2n : b.2 = V.length + k0 := by omega
        rw [ha2, hb2n, pyGet_append_right, pyGet_append_right]
      refine List.Forall₂.cons hanchor (List.Forall₂.cons hidx ?_)
      refine ih pts2 (k0 + 1) htail ?_
      intro j pr hj
      obtain ⟨p0, pn, p2⟩ := hpos (j + 1) pr (by simpa using hj)
      exact ⟨p0, pn, by omega⟩

/-- The per-site body computes the same result whether the extended vertex
table has grown by `e` or not: under well-formedness the region's polygon and
appended far points depend only on the site's own data. -/
theorem processSite_shift {vor : Diagram} {center : Pt} {radius : ℝ} (hwf : WF vor)
    {p1 : ℕ} (hp1 : p1 < vor.points.length) (e : List Pt) (ridx : ℕ) :
    processSite vor center radius (vor.vertices ++ e) p1 ridx =
      processSite vor center radius vor.vertices p1 ridx := by
  cases hreg : getIdx vor.regions (ridx : ℤ) with
  | error err => rw [processSite_regErr hreg, processSite_regErr hreg]
  | ok reg =>
    have hmemreg : reg ∈ vor.regions := pyGet_mem (getIdx_eq_ok.1 hreg)
    have hbnd := hwf.2.2.2.1 reg hmemreg
    by_cases hall : reg.all (fun v => decide (0 ≤ v)) = true
    · rw [processSite_finite hreg hall, processSite_finite hreg hall]
    · have hallf : reg.all (fun v => decide (0 ≤ v)) = false := by
        cases h : reg.all (fun v => decide (0 ≤ v))
        · rfl
        · exact absurd h hall
      by_cases hkey : allRidges vor p1 = []
      · rw [processSite_keyErr hreg hallf hkey, processSite_keyErr hreg hallf hkey]
      · rw [processSite_open hreg hallf hkey, processSite_open hreg hallf hkey]
        have hbounds : ∀ r ∈ allRidges vor p1, r.1 < vor.points.length ∧
            (0 ≤ r.2.1 ∨ 0 ≤ r.2.2) ∧ r.2.1.toNat < vor.vertices.length ∧
            r.2.2.toNat < vor.vertices.length := fun r hr => allRidges_bounds hwf hr
        obtain ⟨res, res', e1, e2, e3, e4⟩ :=
          @ridgeLoopR_shift vor center radius p1 e.length (allRidges vor p1)
            vor.vertices.length ([], []) ([], []) hbounds hp1 rfl List.Forall₂.nil
        rw [show (vor.vertices ++ e).length = vor.vertices.length + e.length from by simp,
          e1, e2, ebind_ok, ebind_ok]
        obtain ⟨st2, hrun2, hst2⟩ := ridgeLoopR_ok hp1 (allRidges vor p1) ([], []) hbounds
          (StOK_nil vor vor.vertices.length)
        rw [e2] at hrun2
        have hres2 : res' = st2 := Except.ok.inj hrun2
        rw [← hres2] at hst2
        rw [e3]
        have hfilter : List.Forall₂
            (fun a b => pyGet ((vor.vertices ++ e) ++ res'.1) a =
              pyGet (vor.vertices ++ res'.1) b)
            (reg.filter (fun v => decide (0 ≤ v))) (reg.filter (fun v => decide (0 ≤ v))) :=
          List.forall₂_same.2 (fun v hv => by
            obtain ⟨hvm, hv0⟩ := List.mem_filter.1 hv
            have h0 : (0 : ℤ) ≤ v := by simpa using hv0
            have h1 : v.toNat < vor.vertices.length := hbnd v hvm
            rw [pyGet_append_left res'.1 h0 (by simp only [List.length_append]; omega),
              pyGet_append_left e h0 h1, pyGet_append_left res'.1 h0 h1])
        have hinter := @interleave_shift_pyGet vor.vertices e res'.1 res.2 res'.2 0 e4
          (fun j pr hj => by
            obtain ⟨p0, pn, p2⟩ := hst2.2 j pr hj
            exact ⟨p0, pn, by omega⟩)
        rw [mapGet_congr (List.rel_append hfilter hinter)]

/-- Under well-formedness, position `k` of the site loop's output equals the
polygon computed for site `i + k` from a fresh table (site independence). -/
theorem siteLoop_decomp {vor : Diagram} {center : Pt} {radius : ℝ} (hwf : WF vor) :
    ∀ (idxs : List ℕ) (i : ℕ) (st : List (List Pt) × List Pt) (out : List (List Pt))
      (tbl : List Pt),
      (∃ e, st.2 = vor.vertices ++ e) →
      (∀ k (hk : k < idxs.length), vor.point_region.get? (i + k) = some (idxs.get ⟨k, hk⟩)) →
      siteLoop vor center radius i idxs st = .ok (out, tbl) →
      ∀ k (hk : k < idxs.length),
        ∃ poly fars, processSite vor center radius vor.vertices (i + k) (idxs.get ⟨k, hk⟩) =
          .ok (poly, fars) ∧ out.get? (st.1.length + k) = some poly := by
  intro idxs
  induction idxs with
  | nil => intro i st out tbl _ _ _ k hk; exact absurd hk (by simp)
  | cons ridx rest ih =>
    intro i st out tbl he hsuf h k hk
    rw [siteLoop_cons] at h
    have h0 : vor.point_region.get? i = some ridx := by simpa using hsuf 0 (by simp)
    have hi_lt : i < vor.point_region.length := (List.get?_eq_some.1 h0).1
    have hp1 : i < vor.points.length := hwf.2.1 ▸ hi_lt
    obtain ⟨e, he2⟩ := he
    have hshift : processSite vor center radius st.2 i ridx =
        processSite vor center radius vor.vertices i ridx := by
      rw [he2]
      exact processSite_shift hwf hp1 e ridx
    cases hps : processSite vor center radius st.2 i ridx with
    | error err => rw [hps] at h; cases h
    | ok pr =>
      rw [hps, ebind_ok] at h
      cases k with
      | zero =>
        obtain ⟨more, hm⟩ := siteLoop_out_extends _ _ _ _ _ h
        refine ⟨pr.1, pr.2, ?_, ?_⟩
        · rw [show i + 0 = i by omega]
          show processSite vor center radius vor.vertices i ridx = Except.ok (pr.1, pr.2)
          rw [← hshift]
          exact hps
        · rw [hm]
          simp only [List.append_assoc, Nat.add_zero]
          rw [List.get?_append_right (le_refl _)]
          simp
      | succ k2 =>
        have hk2 : k2 < rest.length := by simpa using hk
        obtain ⟨poly, fars, hpoly, hget⟩ := ih (i + 1) (st.1 ++ [pr.1], st.2 ++ pr.2) out tbl
          ⟨e ++ pr.2, by rw [he2]; simp⟩
          (fun k3 hk3 => by
            have hs := hsuf (k3 + 1) (by simpa using Nat.succ_lt_succ hk3)
            rw [show i + (k3 + 1) = i + 1 + k3 by omega] at hs
            simpa using hs)
          h k2 hk2
        refine ⟨poly, fars, ?_, ?_⟩
        · rw [show i + (k2 + 1) = i + 1 + k2 by omega]
          simpa using hpoly
        · rw [show st.1.length + (k2 + 1) = (st.1 ++ [pr.1]).length + k2 by
            simp only [List.length_append, List.length_cons, List.length_nil]; omega]
          simpa using hget

/-! ### Claim C2: one region per site, in order -/

/-- Claim C2: on every well-formed input the builder emits exactly one region
per site, in site order — the output length equals the site count and the
`i`-th output polygon is the finite-ized region of site `i`, i.e. the value
`sitePolygon` computes from site `i`'s own region data alone. -/
theorem C2_one_region_per_site : ∀ (vor : Diagram) (radius? : Option ℝ), WF vor →
    ∀ (out : List (List Pt)) (tbl : List Pt), voronoiRun vor radius? = .ok (out, tbl) →
      out.length = vor.points.length ∧
      ∀ i (hi : i < vor.point_region.length),
        ∃ poly, sitePolygon vor radius? i = .ok poly ∧ out.get? i = some poly := by
  intro vor radius? hwf out tbl h
  have hrun : siteLoop vor (centroidOf vor.points) (resolveRadius vor radius?) 0
      vor.point_region ([], vor.vertices) = .ok (out, tbl) := (voronoiRun_ok_elim h).2
  constructor
  · have hlen := siteLoop_len vor.point_region 0 ([], vor.vertices) out tbl hrun
    rw [hlen, ← hwf.2.1]
    simp
  · intro i hi
    obtain ⟨poly, fars, hpoly, hget⟩ := siteLoop_decomp hwf vor.point_region 0
      ([], vor.vertices) out tbl ⟨[], by simp⟩
      (fun k hk => by rw [Nat.zero_add]; exact List.get?_eq_get hk) hrun i hi
    refine ⟨poly, ?_, by simpa using hget⟩
    unfold sitePolygon
    have hgetd : vor.point_region.getD i 0 = vor.point_region.get ⟨i, hi⟩ := by
      rw [List.getD_eq_get?, List.get?_eq_get hi]
      rfl
    rw [hgetd]
    rw [Nat.zero_add] at hpoly
    rw [hpoly]
    rfl

/-- Witness for C2 at the concrete diagram `Dtiny`. -/
theorem C2_one_region_per_site_witness :
    voronoiRun Dtiny none =
      .ok ([[((1 : ℝ), (1 : ℝ))], [((1 : ℝ), (1 : ℝ))]], [((1 : ℝ), (1 : ℝ))]) ∧
    ([[((1 : ℝ), (1 : ℝ))], [((1 : ℝ), (1 : ℝ))]] : List (List Pt)).length =
      Dtiny.points.length ∧
    ∀ i (hi : i < Dtiny.point_region.length),
      ∃ poly, sitePolygon Dtiny none i = .ok poly ∧
        [[((1 : ℝ), (1 : ℝ))], [((1 : ℝ), (1 : ℝ))]].get? i = some poly :=
  ⟨rfl, (C2_one_region_per_site Dtiny none (by decide) _ _ rfl).1,
    (C2_one_region_per_site Dtiny none (by decide) _ _ rfl).2⟩

/-! ### Concrete evaluation of the triangle diagram `D3` -/

/-- The reference centre of `D3` (the centroid of its three sites). -/
noncomputable def D3center : Pt := centroidOf D3.points

/-- The single Voronoi vertex of `D3` (the circumcentre of the triangle). -/
noncomputable def D3w : Pt := ((4 : ℝ), (3 : ℝ))

/-- Far point appended while processing site 0, ridge towards site 1. -/
noncomputable def D3f1 : Pt :=
  farPointCode ((0 : ℝ), (0 : ℝ)) ((8 : ℝ), (0 : ℝ)) D3center 16 D3w

/-- Far point appended while processing site 0, ridge towards site 2. -/
noncomputable def D3f2 : Pt :=
  farPointCode ((0 : ℝ), (0 : ℝ)) ((0 : ℝ), (6 : ℝ)) D3center 16 D3w

/-- Far point appended while processing site 1, ridge towards site 0. -/
noncomputable def D3f3 : Pt :=
  farPointCode ((8 : ℝ), (0 : ℝ)) ((0 : ℝ), (0 : ℝ)) D3center 16 D3w

/-- Far point appended while processing site 1, ridge towards site 2. -/
noncomputable def D3f4 : Pt :=
  farPointCode ((8 : ℝ), (0 : ℝ)) ((0 : ℝ), (6 : ℝ)) D3center 16 D3w

/-- Far point appended while processing site 2, ridge towards site 0. -/
noncomputable def D3f5 : Pt :=
  farPointCode ((0 : ℝ), (6 : ℝ)) ((0 : ℝ), (0 : ℝ)) D3center 16 D3w

/-- Far point appended while processing site 2, ridge towards site 1. -/
noncomputable def D3f6 : Pt :=
  farPointCode ((0 : ℝ), (6 : ℝ)) ((8 : ℝ), (0 : ℝ)) D3center 16 D3w

/-- Full evaluation of the run on `D3` with radius 16: each of the three open
regions is the angular sort of its vertex-lookup list, in which the anchor
vertex appears three times. -/
theorem D3_run : voronoiRun D3 (some 16) =
    .ok ([sortByAngle [D3w, D3w, D3f1, D3w, D3f2],
          sortByAngle [D3w, D3w, D3f3, D3w, D3f4],
          sortByAngle [D3w, D3w, D3f5, D3w, D3f6]],
         [D3w, D3f1, D3f2, D3f3, D3f4, D3f5, D3f6]) := rfl

/-- The reference centre of `D3` evaluates to `(8/3, 2)`. -/
theorem D3center_eq : D3center = ((8 / 3 : ℝ), (2 : ℝ)) := by
  unfold D3center centroidOf D3 vadd sdiv
  norm_num [List.foldl]

/-- The first far point of `D3` evaluates to `(4, −13)`. -/
theorem D3f1_eq : D3f1 = ((4 : ℝ), (-13 : ℝ)) := by
  unfold D3f1 D3w
  rw [D3center_eq]
  unfold farPointCode vsub vadd sdiv smul vmuls dot norm2
  dsimp only
  have hs : Real.sqrt (((8 : ℝ) - 0) ^ 2 + ((0 : ℝ) - 0) ^ 2) = 8 := by
    rw [show ((8 : ℝ) - 0) ^ 2 + ((0 : ℝ) - 0) ^ 2 = 8 ^ 2 by norm_num]
    exact Real.sqrt_sq (by norm_num)
  rw [hs]
  norm_num
  rw [Real.sign_of_neg (by norm_num : (-2 : ℝ) < 0)]
  norm_num

/-- The second far point of `D3` evaluates to `(−12, 3)`. -/
theorem D3f2_eq : D3f2 = ((-12 : ℝ), (3 : ℝ)) := by
  unfold D3f2 D3w
  rw [D3center_eq]
  unfold farPointCode vsub vadd sdiv smul vmuls dot norm2
  dsimp only
  have hs : Real.sqrt (((0 : ℝ) - 0) ^ 2 + ((6 : ℝ) - 0) ^ 2) = 6 := by
    rw [show ((0 : ℝ) - 0) ^ 2 + ((6 : ℝ) - 0) ^ 2 = 6 ^ 2 by norm_num]
    exact Real.sqrt_sq (by norm_num)
  rw [hs]
  norm_num
  rw [Real.sign_of_pos (by norm_num : (0 : ℝ) < 8 / 3)]
  norm_num

/-- The third far point of `D3` evaluates to `(4, −13)`. -/
theorem D3f3_eq : D3f3 = ((4 : ℝ), (-13 : ℝ)) := by
  unfold D3f3 D3w
  rw [D3center_eq]
  unfold farPointCode vsub vadd sdiv smul vmuls dot norm2
  dsimp only
  have hs : Real.sqrt (((0 : ℝ) - 8) ^ 2 + ((0 : ℝ) - 0) ^ 2) = 8 := by
    rw [show ((0 : ℝ) - 8) ^ 2 + ((0 : ℝ) - 0) ^ 2 = 8 ^ 2 by norm_num]
    exact Real.sqrt_sq (by norm_num)
  rw [hs]
  norm_num
  rw [Real.sign_of_pos (by norm_num : (0 : ℝ) < 2)]
  norm_num

/-- The fourth far point of `D3` evaluates to `(68/5, 79/5)`. -/
theorem D3f4_eq : D3f4 = ((68 / 5 : ℝ), (79 / 5 : ℝ)) := by
  unfold D3f4 D3w
  rw [D3center_eq]
  unfold farPointCode vsub vadd sdiv smul vmuls dot norm2
  dsimp only
  have hs : Real.sqrt (((0 : ℝ) - 8) ^ 2 + ((6 : ℝ) - 0) ^ 2) = 10 := by
    rw [show ((0 : ℝ) - 8) ^ 2 + ((6 : ℝ) - 0) ^ 2 = 10 ^ 2 by norm_num]
    exact Real.sqrt_sq (by norm_num)
  rw [hs]
  norm_num
  rw [Real.sign_of_neg (by norm_num : (-(8 / 5) : ℝ) < 0)]
  norm_num

/-- The fifth far point of `D3` evaluates to `(−12, 3)`. -/
theorem D3f5_eq : D3f5 = ((-12 : ℝ), (3 : ℝ)) := by
  unfold D3f5 D3w
  rw [D3center_eq]
  unfold farPointCode vsub vadd sdiv smul vmuls dot norm2
  dsimp only
  have hs : Real.sqrt (((0 : ℝ) - 0) ^ 2 + ((0 : ℝ) - 6) ^ 2) = 6 := by
    rw [show ((0 : ℝ) - 0) ^ 2 + ((0 : ℝ) - 6) ^ 2 = 6 ^ 2 by norm_num]
    exact Real.sqrt_sq (by norm_num)
  rw [hs]
  norm_num
  rw [Real.sign_of_neg (by norm_num : (-(8 / 3) : ℝ) < 0)]
  norm_num

/-- The sixth far point of `D3` evaluates to `(68/5, 79/5)`. -/
theorem D3f6_eq : D3f6 = ((68 / 5 : ℝ), (79 / 5 : ℝ)) := by
  unfold D3f6 D3w
  rw [D3center_eq]
  unfold farPointCode vsub vadd sdiv smul vmuls dot norm2
  dsimp only
  have hs : Real.sqrt (((8 : ℝ) - 0) ^ 2 + ((0 : ℝ) - 6) ^ 2) = 10 := by
    rw [show ((8 : ℝ) - 0) ^ 2 + ((0 : ℝ) - 6) ^ 2 = 10 ^ 2 by norm_num]
    exact Real.sqrt_sq (by norm_num)
  rw [hs]
  norm_num
  rw [Real.sign_of_pos (by norm_num : (0 : ℝ) < 8 / 5)]
  norm_num

/-! ### Claims C1 and C7 -/

/-- The site lies in the convex hull of the polygon's vertices, witnessed by
a convex combination of three of them. -/
def inTriangleHull (site : Pt) (poly : List Pt) : Prop :=
  ∃ p q r, p ∈ poly ∧ q ∈ poly ∧ r ∈ poly ∧
    ∃ a b c : ℝ, 0 ≤ a ∧ 0 ≤ b ∧ 0 ≤ c ∧ a + b + c = 1 ∧
      vadd (smul a p) (vadd (smul b q) (smul c r)) = site

/-- A sorted-by-angle list that starts from a duplicated head is never
duplicate-free. -/
theorem sortByAngle_not_nodup_of_dup {x : Pt} {l : List Pt} :
    ¬ (sortByAngle (x :: x :: l)).Nodup := by
  intro h
  have hperm : List.Perm (sortByAngle (x :: x :: l)) (x :: x :: l) :=
    List.perm_insertionSort _ _
  have h2 : (x :: x :: l).Nodup := hperm.nodup_iff.1 h
  exact (List.nodup_cons.1 h2).1 (List.mem_cons_self x l)

/-- The centroid of a list of points is invariant under permutation. -/
theorem centroidOf_perm {l l2 : List Pt} (h : List.Perm l l2) :
    centroidOf l = centroidOf l2 := by
  haveI : RightCommutative (fun acc p => vadd acc p) :=
    ⟨fun a b c => by unfold vadd; simp only [Prod.mk.injEq]; exact ⟨by ring, by ring⟩⟩
  unfold centroidOf
  rw [h.length_eq, h.foldl_eq]

/-- Claim C1 as stated is false: its "no repeated vertices" part fails on the
well-formed triangle diagram `D3` — every reconstructed polygon contains the
anchor vertex several times, because the reconstruction appends the anchor
`v2` of each one-sentinel ridge to `region_vertices` even though it is
already listed among the region's finite vertices. -/
theorem C1_counterexample : ¬ (∀ (vor : Diagram) (radius? : Option ℝ)
    (out : List (List Pt)) (tbl : List Pt), WF vor →
    voronoiRun vor radius? = .ok (out, tbl) → ∀ poly ∈ out, poly.Nodup) := by
  intro hcl
  have h := hcl D3 (some 16) _ _ (by decide) D3_run
    (sortByAngle [D3w, D3w, D3f1, D3w, D3f2]) (by simp)
  exact sortByAngle_not_nodup_of_dup h

/-- Claim C1 amended, proved at the concrete scenario the claim quantifies
over (3 non-collinear sites, here the triangle `D3`): the builder returns one
closed polygon per site and each site lies in the convex hull of its
polygon's vertices, but every one of these polygons has repeated vertices, so
the polygons are not simple in the claimed sense. -/
theorem C1_amended_triangle :
    ∃ out tbl, voronoiRun D3 (some 16) = .ok (out, tbl) ∧ out.length = D3.points.length ∧
      (∀ poly ∈ out, ¬ poly.Nodup) ∧
      ∀ i (hi : i < out.length) (hi2 : i < D3.points.length),
        inTriangleHull (D3.points.get ⟨i, hi2⟩) (out.get ⟨i, hi⟩) := by
  refine ⟨_, _, D3_run, rfl, ?_, ?_⟩
  · intro poly hp
    simp only [List.mem_cons, List.not_mem_nil, or_false] at hp
    rcases hp with rfl | rfl | rfl
    · exact sortByAngle_not_nodup_of_dup
    · exact sortByAngle_not_nodup_of_dup
    · exact sortByAngle_not_nodup_of_dup
  · have hmem : ∀ (y : Pt) (l : List Pt), y ∈ l → y ∈ sortByAngle l :=
      fun y l hy => (List.perm_insertionSort _ _).mem_iff.2 hy
    intro i hi hi2
    have h3 : i < 3 := by simpa using hi2
    interval_cases i
    · show inTriangleHull ((0 : ℝ), (0 : ℝ)) (sortByAngle [D3w, D3w, D3f1, D3w, D3f2])
      refine ⟨D3w, D3f1, D3f2, hmem _ _ (by simp), hmem _ _ (by simp), hmem _ _ (by simp),
        9 / 16, 3 / 16, 4 / 16, by norm_num, by norm_num, by norm_num, by norm_num, ?_⟩
      rw [D3f1_eq, D3f2_eq]
      unfold D3w vadd smul
      norm_num
    · show inTriangleHull ((8 : ℝ), (0 : ℝ)) (sortByAngle [D3w, D3w, D3f3, D3w, D3f4])
      refine ⟨D3w, D3f3, D3f4, hmem _ _ (by simp), hmem _ _ (by simp), hmem _ _ (by simp),
        1 / 16, 25 / 48, 5 / 12, by norm_num, by norm_num, by norm_num, by norm_num, ?_⟩
      rw [D3f3_eq, D3f4_eq]
      unfold D3w vadd smul
      norm_num
    · show inTriangleHull ((0 : ℝ), (6 : ℝ)) (sortByAngle [D3w, D3w, D3f5, D3w, D3f6])
      refine ⟨D3w, D3f5, D3f6, hmem _ _ (by simp), hmem _ _ (by simp), hmem _ _ (by simp),
        3 / 8, 25 / 64, 15 / 64, by norm_num, by norm_num, by norm_num, by norm_num, ?_⟩
      rw [D3f5_eq, D3f6_eq]
      unfold D3w vadd smul
      norm_num

/-- The angle of the square cell's third listed vertex around the cell
centroid `(5,5)` is π. -/
theorem angle_sq_left : angleOf ((5 : ℝ), (5 : ℝ)) ((0 : ℝ), (5 : ℝ)) = Real.pi := by
  unfold angleOf atan2
  dsimp only
  rw [show ((5 : ℝ) - 5 : ℝ) = 0 by norm_num, show ((0 : ℝ) - 5 : ℝ) = -5 by norm_num]
  rw [show (⟨-5, 0⟩ : ℂ) = ((-5 : ℝ) : ℂ) from rfl]
  exact Complex.arg_ofReal_of_neg (by norm_num)

/-- The angle of the square cell's fourth listed vertex around the cell
centroid `(5,5)` is −π/2. -/
theorem angle_sq_down : angleOf ((5 : ℝ), (5 : ℝ)) ((5 : ℝ), (0 : ℝ)) = -(Real.pi / 2) := by
  unfold angleOf atan2
  dsimp only
  rw [show ((0 : ℝ) - 5 : ℝ) = -5 by norm_num, show ((5 : ℝ) - 5 : ℝ) = 0 by norm_num]
  rw [show (⟨0, -5⟩ : ℂ) = ((5 : ℝ) : ℂ) * (-Complex.I) from by
    apply Complex.ext <;> simp]
  rw [Complex.arg_real_mul (-Complex.I) (by norm_num : (0 : ℝ) < 5)]
  exact Complex.arg_neg_I

/-- Claim C7 as stated is false: on the well-formed diagram `Dsq` the bounded
square cell is passed through in the diagram's own (consistently wound,
cyclic) vertex order, which is not sorted by strictly increasing angle around
the cell's centroid. -/
theorem C7_counterexample : ¬ (∀ (vor : Diagram) (radius? : Option ℝ)
    (out : List (List Pt)) (tbl : List Pt), WF vor →
    voronoiRun vor radius? = .ok (out, tbl) → ∀ poly ∈ out, angleSortedStrict poly) := by
  intro hcl
  obtain ⟨out, tbl, hrun, hlen, -⟩ :=
    voronoiRun_ok (show WF Dsq by decide) none (fun _ => by decide)
  obtain ⟨T, poly, fars, hps, hget⟩ :=
    voronoiRun_get hrun (show (0 : ℕ) < Dsq.point_region.length by decide)
  have hps2 : processSite Dsq (centroidOf Dsq.points) (resolveRadius Dsq none) T 0 0 =
      .ok (poly, fars) := hps
  have hreg : getIdx Dsq.regions ((0 : ℕ) : ℤ) = .ok [1, 2, 3, 0] := rfl
  have hall : ([1, 2, 3, 0] : List ℤ).all (fun v => decide (0 ≤ v)) = true := rfl
  rw [processSite_finite hreg hall] at hps2
  rw [show mapGet Dsq.vertices [1, 2, 3, 0] =
      Except.ok [((10 : ℝ), (5 : ℝ)), ((5 : ℝ), (10 : ℝ)), ((0 : ℝ), (5 : ℝ)),
        ((5 : ℝ), (0 : ℝ))] from rfl, emap_ok] at hps2
  have hpoly : poly = [((10 : ℝ), (5 : ℝ)), ((5 : ℝ), (10 : ℝ)), ((0 : ℝ), (5 : ℝ)),
      ((5 : ℝ), (0 : ℝ))] := (congrArg Prod.fst (Except.ok.inj hps2)).symm
  have hmem : poly ∈ out := List.get?_mem hget
  have hsorted := hcl Dsq none out tbl (by decide) hrun poly hmem
  rw [hpoly] at hsorted
  unfold angleSortedStrict at hsorted
  have hctr : centroidOf [((10 : ℝ), (5 : ℝ)), ((5 : ℝ), (10 : ℝ)), ((0 : ℝ), (5 : ℝ)),
      ((5 : ℝ), (0 : ℝ))] = ((5 : ℝ), (5 : ℝ)) := by
    unfold centroidOf vadd sdiv
    norm_num [List.foldl]
  rw [hctr] at hsorted
  obtain ⟨-, h2⟩ := List.sorted_cons.1 hsorted
  obtain ⟨-, h3⟩ := List.sorted_cons.1 h2
  obtain ⟨h4, -⟩ := List.sorted_cons.1 h3
  have hcd := h4 _ (List.mem_singleton.2 rfl)
  rw [angle_sq_left, angle_sq_down] at hcd
  have hpi := Real.pi_pos
  linarith

/-- Claim C7 amended: the polygon emitted for an open (reconstructed) region
is the angular sort of its looked-up vertex list, hence sorted by
nondecreasing — not strictly increasing, since anchor vertices repeat —
angle around its own centroid.  (Finite regions are passed through in the
diagram's order and are not re-sorted.) -/
theorem C7_amended_sorted : ∀ (vor : Diagram) (radius? : Option ℝ)
    (out : List (List Pt)) (tbl : List Pt), voronoiRun vor radius? = .ok (out, tbl) →
    ∀ i (hi : i < vor.point_region.length) (reg : List ℤ),
      getIdx vor.regions ((vor.point_region.get ⟨i, hi⟩ : ℕ) : ℤ) = .ok reg →
      (∃ v ∈ reg, v < 0) →
      ∃ poly coords, out.get? i = some poly ∧ poly = sortByAngle coords ∧
        poly.Sorted (fun a b => angleOf (centroidOf poly) a ≤ angleOf (centroidOf poly) b) := by
  intro vor radius? out tbl h i hi reg hreg hopen
  obtain ⟨T, poly, fars, hps, hget⟩ := voronoiRun_get h hi
  have hallf : reg.all (fun v => decide (0 ≤ v)) = false := by
    obtain ⟨v, hv, hneg⟩ := hopen
    exact List.all_eq_false.2 ⟨v, hv, by simp only [decide_eq_true_eq]; omega⟩
  by_cases hkey : allRidges vor i = []
  · rw [processSite_keyErr hreg hallf hkey] at hps
    cases hps
  · rw [processSite_open hreg hallf hkey] at hps
    cases hloop : ridgeLoopR vor (centroidOf vor.points) (resolveRadius vor radius?) i
        T.length (allRidges vor i) ([], []) with
    | error e => rw [hloop] at hps; cases hps
    | ok res =>
      rw [hloop, ebind_ok] at hps
      cases hmap : mapGet (T ++ res.1)
          (reg.filter (fun v => decide (0 ≤ v)) ++ interleavePts res.2) with
      | error e => rw [hmap] at hps; cases hps
      | ok coords =>
        rw [hmap, emap_ok] at hps
        have h1 : sortByAngle coords = poly := congrArg Prod.fst (Except.ok.inj hps)
        refine ⟨poly, coords, hget, h1.symm, ?_⟩
        rw [← h1]
        have hcent : centroidOf (sortByAngle coords) = centroidOf coords :=
          centroidOf_perm (List.perm_insertionSort _ _)
        rw [hcent]
        unfold sortByAngle
        haveI : IsTotal Pt
            (fun a b => angleOf (centroidOf coords) a ≤ angleOf (centroidOf coords) b) :=
          ⟨fun a b => le_total _ _⟩
        haveI : IsTrans Pt
            (fun a b => angleOf (centroidOf coords) a ≤ angleOf (centroidOf coords) b) :=
          ⟨fun a b c2 hab hbc => le_trans hab hbc⟩
        exact List.sorted_insertionSort _ coords

/-- Witness for the amended C7 at the concrete diagram `D3`, site 0 (an open
region). -/
theorem C7_amended_sorted_witness :
    getIdx D3.regions ((D3.point_region.get ⟨0, by decide⟩ : ℕ) : ℤ) = .ok [-1, 0] ∧
    (∃ v ∈ ([-1, 0] : List ℤ), v < 0) ∧
    ∃ poly coords,
      [sortByAngle [D3w, D3w, D3f1, D3w, D3f2], sortByAngle [D3w, D3w, D3f3, D3w, D3f4],
        sortByAngle [D3w, D3w, D3f5, D3w, D3f6]].get? 0 = some poly ∧
      poly = sortByAngle coords ∧
      poly.Sorted (fun a b => angleOf (centroidOf poly) a ≤ angleOf (centroidOf poly) b) :=
  ⟨rfl, by decide,
    C7_amended_sorted D3 (some 16) _ _ D3_run 0 (by decide) [-1, 0] rfl (by decide)⟩
